import Mathlib

/-!
Verification of `rs_string.h`, a header-only dynamic C string with a small-buffer
(inline/SSO) representation and a reference-counted copy-on-write heap
representation.

Shallow-embedding conventions:

* Bytes are `Nat` (values of C `unsigned char`).
* The heap is an association list of abstract addresses to `rs__hdr` blocks
  (capacity, refcount, and the initialised prefix of the `cap + 1`-byte buffer;
  uninitialised tail bytes are never read by the code and are not represented).
* `rs_string.p` is `none` when the pointer aims at the string's own `sso` array and
  `some id` when it aims at heap block `id` (in the C source the two cases are told
  apart by the address comparison `s->p != s->sso`).
* Allocation success is an oracle `Alloc : Nat → Bool` applied to the requested
  byte count; `-1` return codes and untouched-state guarantees are proved for
  every oracle.
* `size_t` values are `Nat`; the one place where C overflow could change a result
  reachable only with absurdly large capacities — the growth formula
  `cap + cap/2 + 1` — is reduced modulo `2 ^ 64`.
* Loops are structurally recursive; the two bounded loops (`find`'s scan and
  `split`) carry exactly enough fuel to mirror the C iteration space, while the
  `replace_all` loop is genuinely fuel-bounded because the C loop can fail to
  terminate (see the C9 analysis).
-/

/-- Bytes are modelled as natural numbers (C `unsigned char` values). -/
abbrev Byte := Nat

/-- `RS_SSO_CAP` — the inline (SSO) capacity threshold from `rs_string.h`. -/
def RS_SSO_CAP : Nat := 22

/-- Size in bytes of the `rs__hdr` header (two `size_t` fields) that precedes every
heap buffer; it only enters the byte counts handed to the allocation oracle. -/
def rs__hdr_size : Nat := 16

/-- `2 ^ 64`, the wrap-around modulus of `size_t`. -/
def SIZE_BOUND : Nat := 2 ^ 64

/-- A heap block: the `rs__hdr` header fields (`cap`, `rc`) together with the
initialised prefix of its `cap + 1`-byte buffer. -/
structure rs__hdr where
  cap : Nat
  rc : Nat
  data : List Byte
deriving DecidableEq

/-- The heap: blocks indexed by abstract addresses plus a fresh-address counter. -/
structure Heap where
  blocks : List (Nat × rs__hdr)
  next : Nat
deriving DecidableEq

def Heap.lookup (h : Heap) (id : Nat) : Option rs__hdr :=
  (h.blocks.find? (fun q => q.1 == id)).map Prod.snd

def Heap.update (h : Heap) (id : Nat) (b : rs__hdr) : Heap :=
  { h with blocks := h.blocks.map (fun q => if q.1 = id then (id, b) else q) }

def Heap.alloc (h : Heap) (b : rs__hdr) : Heap × Nat :=
  ({ blocks := (h.next, b) :: h.blocks, next := h.next + 1 }, h.next)

def Heap.remove (h : Heap) (id : Nat) : Heap :=
  { h with blocks := h.blocks.filter (fun q => q.1 != id) }

/-- Write `bytes` into a buffer at byte offset `pos` — the destination effect of C
`memcpy`/`memmove` on the modelled initialised prefix. If `pos` lies past the end
of the prefix the gap is padded (the code always overwrites such gaps before any
read can see them). -/
def memWrite (buf : List Byte) (pos : Nat) (bytes : List Byte) : List Byte :=
  buf.take pos ++ List.replicate (pos - buf.length) 0 ++ bytes ++ buf.drop (pos + bytes.length)

/-- `rs_string`: `len`, the reserved `off`, the buffer pointer (`none` = own `sso`
array, `some id` = heap block `id`), `cap`, and the initialised prefix of the
inline `sso` buffer. -/
structure rs_string where
  len : Nat
  off : Nat
  p : Option Nat
  cap : Nat
  sso : List Byte
deriving DecidableEq

/-- `rs_string_is_heap`: the pointer does not aim at the string's own sso array. -/
def rs_string_is_heap (s : rs_string) : Bool := s.p.isSome

/-- `rs_string_cap`: block capacity when heap, `RS_SSO_CAP` when inline. -/
def rs_string_cap (s : rs_string) : Nat :=
  if rs_string_is_heap s then s.cap else RS_SSO_CAP

/-- The buffer `rs_string_cstr` points at (its modelled initialised prefix).
A dangling heap pointer (use-after-free, undefined in C, unreachable from
well-formed states) reads as the empty buffer. -/
def rs__buf (h : Heap) (s : rs_string) : List Byte :=
  match s.p with
  | none => s.sso
  | some id =>
    match h.lookup id with
    | some blk => blk.data
    | none => []

/-- The visible content of a string: its first `len` buffer bytes. -/
def rs_string_content (h : Heap) (s : rs_string) : List Byte :=
  (rs__buf h s).take s.len

/-- Allocation oracle: whether a request for the given byte count succeeds. -/
def Alloc := Nat → Bool

/-- `rs_string_init`: empty, inline, terminator at index 0. -/
def rs_string_init : rs_string :=
  { len := 0, off := 0, p := none, cap := RS_SSO_CAP, sso := [0] }

/-- Result of `rs_string_from_val`: a value, or the null-pointer dereference the
code performs when it writes `h->cap` without checking the allocator's result. -/
inductive rs_from_result where
  | ok (h : Heap) (s : rs_string)
  | nullDeref
deriving DecidableEq

/-- `rs_string_from_val`. The C argument is a NUL-terminated string: `none` models a
null pointer, `some bytes` the (zero-free) byte sequence before the terminator, so
`strlen` is `bytes.length` and the `*c` test is `bytes ≠ []`. -/
def rs_string_from_val (h : Heap) (a : Alloc) (c : Option (List Byte)) : rs_from_result :=
  match c with
  | none => .ok h rs_string_init
  | some bytes =>
    if bytes.length = 0 then .ok h rs_string_init
    else
      let n := bytes.length
      if n ≤ RS_SSO_CAP then
        .ok h { rs_string_init with sso := memWrite rs_string_init.sso 0 (bytes ++ [0]), len := n }
      else
        if a (rs__hdr_size + n + 1) then
          let al := Heap.alloc h { cap := n, rc := 1, data := bytes ++ [0] }
          .ok al.1 { len := n, off := 0, p := some al.2, cap := n, sso := rs_string_init.sso }
        else .nullDeref

/-- `rs__free_heap`: decrement the block's refcount, releasing it at zero. -/
def rs__free_heap (h : Heap) (s : rs_string) : Heap :=
  match s.p with
  | none => h
  | some id =>
    match h.lookup id with
    | none => h
    | some blk =>
      if blk.rc - 1 = 0 then Heap.remove h id
      else Heap.update h id { blk with rc := blk.rc - 1 }

/-- `rs_string_free`: release the heap reference if any, then re-init. -/
def rs_string_free (h : Heap) (s : rs_string) : Heap × rs_string :=
  (rs__free_heap h s, rs_string_init)

/-- `rs__retain`: increment the refcount of the block a heap string points at. -/
def rs__retain (h : Heap) (s : rs_string) : Heap :=
  match s.p with
  | none => h
  | some id =>
    match h.lookup id with
    | none => h
    | some blk => Heap.update h id { blk with rc := blk.rc + 1 }

/-- `rs_string_share` for distinct `dst`/`src` (the `dst == src` early return is an
address comparison on the two instances; the model has no instance addresses and
the claims quantify over distinct instances). Mirrors the source: free `dst`; if
`src` is heap, copy the whole struct and `rs__retain`; else copy the sso bytes;
finally the trailing `if (rs_string_is_heap(dst)) rs__retain(dst);`. -/
def rs_string_share (h : Heap) (dst src : rs_string) : Heap × rs_string :=
  let h1 := rs__free_heap h dst
  let step : Heap × rs_string :=
    match src.p with
    | some _ => (rs__retain h1 src, src)
    | none =>
      (h1, { len := src.len, off := 0, p := none, cap := RS_SSO_CAP,
             sso := memWrite rs_string_init.sso 0 (src.sso.take (src.len + 1)) })
  let d := step.2
  (if rs_string_is_heap d then rs__retain step.1 d else step.1, d)

/-- `rs__ensure_unique`: no-op when inline or sole owner; otherwise clone the block
at the same capacity (refcount 1), decrement the old refcount and repoint. The C
allocates the clone before decrementing; `malloc` returns a fresh address, so the
relative order of the decrement and the fresh allocation is immaterial here. -/
def rs__ensure_unique (h : Heap) (s : rs_string) (a : Alloc) : Int × Heap × rs_string :=
  match s.p with
  | none => (0, h, s)
  | some id =>
    match h.lookup id with
    | none => (0, h, s)
    | some blk =>
      if blk.rc = 1 then (0, h, s)
      else if a (rs__hdr_size + blk.cap + 1) then
        let h1 := Heap.update h id { blk with rc := blk.rc - 1 }
        let al := Heap.alloc h1 { cap := blk.cap, rc := 1, data := blk.data.take (s.len + 1) }
        (0, al.1, { s with p := some al.2, cap := blk.cap })
      else (-1, h, s)

/-- `rs_string_reserve_ex`: no-op when `need ≤ cap`; else ensure exclusive
ownership, then grow to `max(need, cap + cap/2 + 1)` (`size_t` arithmetic), by
in-place reallocation when already heap or by promotion from inline. -/
def rs_string_reserve_ex (h : Heap) (s : rs_string) (need : Nat) (a : Alloc) :
    Int × Heap × rs_string :=
  let cap := rs_string_cap s
  if need ≤ cap then (0, h, s)
  else
    let eu := rs__ensure_unique h s a
    if eu.1 ≠ 0 then (-1, eu.2.1, eu.2.2)
    else
      let h1 := eu.2.1
      let s1 := eu.2.2
      let ncap0 := (cap + cap / 2 + 1) % SIZE_BOUND
      let ncap := if ncap0 < need then need else ncap0
      match s1.p with
      | some id =>
        match h1.lookup id with
        | none => (-1, h1, s1)
        | some blk =>
          if a (rs__hdr_size + ncap + 1) then
            (0, Heap.update h1 id { blk with cap := ncap }, { s1 with cap := ncap })
          else (-1, h1, s1)
      | none =>
        if a (rs__hdr_size + ncap + 1) then
          let al := Heap.alloc h1 { cap := ncap, rc := 1, data := s1.sso.take (s1.len + 1) }
          (0, al.1, { s1 with p := some al.2, cap := ncap })
        else (-1, h1, s1)

/-- Write `bytes` at offset `pos` of the active buffer, through
`rs_string_is_heap(s) ? s->p : s->sso`. -/
def rs__store (h : Heap) (s : rs_string) (pos : Nat) (bytes : List Byte) :
    Heap × rs_string :=
  match s.p with
  | none => (h, { s with sso := memWrite s.sso pos bytes })
  | some id =>
    match h.lookup id with
    | none => (h, s)
    | some blk => (Heap.update h id { blk with data := memWrite blk.data pos bytes }, s)

/-- `rs_string_assign`: reserve, ensure unique, overwrite from offset 0 plus the
terminator, set `len`. -/
def rs_string_assign (h : Heap) (s : rs_string) (v : List Byte) (a : Alloc) :
    Int × Heap × rs_string :=
  let rv := rs_string_reserve_ex h s v.length a
  if rv.1 ≠ 0 then (-1, rv.2.1, rv.2.2)
  else
    let eu := rs__ensure_unique rv.2.1 rv.2.2 a
    if eu.1 ≠ 0 then (-1, eu.2.1, eu.2.2)
    else
      let st := rs__store eu.2.1 eu.2.2 0 (v ++ [0])
      (0, st.1, { st.2 with len := v.length })

/-- `rs_string_append`: reserve `len + v.len`, ensure unique, write `v` and the
terminator at the end, bump `len`. -/
def rs_string_append (h : Heap) (s : rs_string) (v : List Byte) (a : Alloc) :
    Int × Heap × rs_string :=
  let rv := rs_string_reserve_ex h s (s.len + v.length) a
  if rv.1 ≠ 0 then (-1, rv.2.1, rv.2.2)
  else
    let eu := rs__ensure_unique rv.2.1 rv.2.2 a
    if eu.1 ≠ 0 then (-1, eu.2.1, eu.2.2)
    else
      let s1 := eu.2.2
      let st := rs__store eu.2.1 s1 s1.len (v ++ [0])
      (0, st.1, { st.2 with len := s1.len + v.length })

/-- `rs_string_insert`: clamp `pos`, reserve, ensure unique, shift `[pos, len)`
right by `v.len` (overlap-safe move read before any write), write `v`, bump `len`,
terminate. -/
def rs_string_insert (h : Heap) (s : rs_string) (pos0 : Nat) (v : List Byte) (a : Alloc) :
    Int × Heap × rs_string :=
  let pos := if pos0 > s.len then s.len else pos0
  let rv := rs_string_reserve_ex h s (s.len + v.length) a
  if rv.1 ≠ 0 then (-1, rv.2.1, rv.2.2)
  else
    let eu := rs__ensure_unique rv.2.1 rv.2.2 a
    if eu.1 ≠ 0 then (-1, eu.2.1, eu.2.2)
    else
      let h2 := eu.2.1
      let s2 := eu.2.2
      let buf := rs__buf h2 s2
      let moved := (buf.drop pos).take (s2.len - pos)
      let st1 := rs__store h2 s2 (pos + v.length) moved
      let st2 := rs__store st1.1 st1.2 pos v
      let s3 := { st2.2 with len := st2.2.len + v.length }
      let st3 := rs__store st2.1 s3 s3.len [0]
      (0, st3.1, st3.2)

/-- `rs_string_erase`: out-of-range `pos` is a no-op, `n` is clamped, ensure
unique, then shift `[pos+n, len]` (terminator included) left by `n`. -/
def rs_string_erase (h : Heap) (s : rs_string) (pos n0 : Nat) (a : Alloc) :
    Int × Heap × rs_string :=
  if pos > s.len then (0, h, s)
  else
    let n := if pos + n0 > s.len then s.len - pos else n0
    let eu := rs__ensure_unique h s a
    if eu.1 ≠ 0 then (-1, eu.2.1, eu.2.2)
    else
      let h1 := eu.2.1
      let s1 := eu.2.2
      let buf := rs__buf h1 s1
      let moved := (buf.drop (pos + n)).take (s1.len - (pos + n) + 1)
      let st := rs__store h1 s1 pos moved
      (0, st.1, { st.2 with len := st.2.len - n })

/-- The naive scan shared by `rs_string_find` and `rs_sv_split`: the first `j ≥ i`
with `j + |what| ≤ len` and a byte match at `j`. Structurally recursive; the
fuel argument is always instantiated with exactly the remaining iteration count
(`len + 1 - i`), which the recursion preserves, so this is precisely the C loop. -/
def rs__scan_from (buf what : List Byte) (len : Nat) : Nat → Nat → Option Nat
  | _, 0 => none
  | i, fuel + 1 =>
    if i + what.length ≤ len then
      if (buf.drop i).take what.length = what then some i
      else rs__scan_from buf what len (i + 1) fuel
    else none

def rs__scan (buf what : List Byte) (len i : Nat) : Option Nat :=
  rs__scan_from buf what len i (len + 1 - i)

/-- `rs_string_find`: empty needle returns `start` when in range; otherwise the
naive left-to-right scan. `none` is the `(size_t)-1` sentinel. -/
def rs_string_find (h : Heap) (s : rs_string) (what : List Byte) (start : Nat) :
    Option Nat :=
  if what.length = 0 then
    if start ≤ s.len then some start else none
  else rs__scan (rs__buf h s) what s.len start

/-- `rs_string_trim_left`: count leading bytes `≤ 0x20`, erase them. -/
def rs_string_trim_left (h : Heap) (s : rs_string) (a : Alloc) : Int × Heap × rs_string :=
  let i := ((rs_string_content h s).takeWhile (fun b => b ≤ 0x20)).length
  if i = 0 then (0, h, s) else rs_string_erase h s 0 i a

/-- The `while (end > start && *(end-1) <= 0x20) --end;` loop of
`rs_string_trim_right`, returning the final end offset. -/
def rs__trim_right_end (c : List Byte) : Nat → Nat
  | 0 => 0
  | e + 1 => if c.getD e 0 ≤ 0x20 then rs__trim_right_end c e else e + 1

/-- `rs_string_trim_right`: find the end offset past the trailing run of bytes
`≤ 0x20` and erase the tail. -/
def rs_string_trim_right (h : Heap) (s : rs_string) (a : Alloc) : Int × Heap × rs_string :=
  if s.len = 0 then (0, h, s)
  else
    let size := rs__trim_right_end (rs_string_content h s) s.len
    if size = s.len then (0, h, s) else rs_string_erase h s size (s.len - size) a

/-- `rs_string_trim` = `trim_right` then `trim_left` (the first return value is
discarded by the C code). -/
def rs_string_trim (h : Heap) (s : rs_string) (a : Alloc) : Int × Heap × rs_string :=
  let tr := rs_string_trim_right h s a
  rs_string_trim_left tr.2.1 tr.2.2 a

/-- `rs_string_replace_first`: find the first occurrence; absent is a no-op
returning 0. When `to` fits, erase then insert (the erase return value is
discarded by the C code); when `to` is longer, pre-reserve the final size. -/
def rs_string_replace_first (h : Heap) (s : rs_string) (fromv tov : List Byte)
    (a : Alloc) : Int × Heap × rs_string :=
  match rs_string_find h s fromv 0 with
  | none => (0, h, s)
  | some pos =>
    if fromv.length ≥ tov.length then
      let er := rs_string_erase h s pos fromv.length a
      rs_string_insert er.2.1 er.2.2 pos tov a
    else
      let rv := rs_string_reserve_ex h s (s.len + (tov.length - fromv.length)) a
      if rv.1 ≠ 0 then (-1, rv.2.1, rv.2.2)
      else
        let er := rs_string_erase rv.2.1 rv.2.2 pos fromv.length a
        rs_string_insert er.2.1 er.2.2 pos tov a

/-- One iteration of the `rs_string_replace_all` loop: find from the cursor, erase
the match and insert `tov` (both return values are discarded by the C code), then
advance the cursor just past the inserted text. `none` means the find failed and
the loop exits. -/
def rs__replace_all_step (h : Heap) (s : rs_string) (fromv tov : List Byte) (a : Alloc)
    (i : Nat) : Option (Heap × rs_string × Nat) :=
  match rs_string_find h s fromv i with
  | none => none
  | some pos =>
    let er := rs_string_erase h s pos fromv.length a
    let ins := rs_string_insert er.2.1 er.2.2 pos tov a
    some (ins.2.1, ins.2.2, pos + tov.length)

/-- The `rs_string_replace_all` loop, bounded by fuel: the C loop has no intrinsic
termination guarantee (see the C9 analysis), so `none` marks fuel running out
mid-loop. -/
def rs__replace_all_loop (fromv tov : List Byte) (a : Alloc) :
    Nat → Heap → rs_string → Nat → Nat → Option (Int × Heap × rs_string)
  | 0, _, _, _, _ => none
  | fuel + 1, h, s, i, count =>
    match rs__replace_all_step h s fromv tov a i with
    | none => some ((count : Int), h, s)
    | some nxt => rs__replace_all_loop fromv tov a fuel nxt.1 nxt.2.1 nxt.2.2 (count + 1)

/-- `rs_string_replace_all`: empty `from` is rejected (returns 0); otherwise the
find/erase/insert loop, returning the replacement count. -/
def rs_string_replace_all (h : Heap) (s : rs_string) (fromv tov : List Byte) (a : Alloc)
    (fuel : Nat) : Option (Int × Heap × rs_string) :=
  if fromv.length = 0 then some (0, h, s)
  else rs__replace_all_loop fromv tov a fuel h s 0 0

/-- `rs_string_vprintf`. `vsnprintf` is external to the repository; its two passes
are an oracle: `fmt_out = none` models a sizing pass reporting an error
(`need < 0`), `some out` the exact bytes formatting produces. -/
def rs_string_vprintf (h : Heap) (s : rs_string) (fmt_out : Option (List Byte))
    (a : Alloc) : Int × Heap × rs_string :=
  match fmt_out with
  | none => (-1, h, s)
  | some out =>
    let rv := rs_string_reserve_ex h s out.length a
    if rv.1 ≠ 0 then (-1, rv.2.1, rv.2.2)
    else
      let eu := rs__ensure_unique rv.2.1 rv.2.2 a
      if eu.1 ≠ 0 then (-1, eu.2.1, eu.2.2)
      else
        let st := rs__store eu.2.1 eu.2.2 0 (out ++ [0])
        ((out.length : Int), st.1, { st.2 with len := out.length })

/-- The `rs_sv_split` scan loop, with the tokens delivered to the callback
collected in order. The fuel is always at least the remaining iteration count
(`s.length + 1 - i`), which the recursion preserves, so this is exactly the C
loop. -/
def rs_sv_split_loop (s sep : List Byte) (keep : Bool) : Nat → Nat → List (List Byte)
  | _, 0 => []
  | i, fuel + 1 =>
    if i ≤ s.length then
      match rs__scan s sep s.length i with
      | none =>
        let tok := s.drop i
        if 0 < tok.length ∨ keep = true then [tok] else []
      | some pos =>
        let tok := (s.drop i).take (pos - i)
        let emitted := if 0 < tok.length ∨ keep = true then [tok] else []
        let i2 := pos + sep.length
        if i2 = s.length ∧ keep = true then emitted ++ [[]]
        else emitted ++ rs_sv_split_loop s sep keep i2 fuel
    else []

/-- `rs_sv_split`: empty separator visits the whole input once when non-empty or
`keep_empty`; otherwise the left-to-right token scan. -/
def rs_sv_split (s sep : List Byte) (keep : Bool) : List (List Byte) :=
  if sep.length = 0 then
    if 0 < s.length ∨ keep = true then [s] else []
  else rs_sv_split_loop s sep keep 0 (s.length + 1)

/-- Well-formedness of a string against the heap: fresh-counter discipline,
`len ≤ cap`, the initialised buffer prefix covers content plus terminator and
stays within `cap + 1`, and a heap pointer aims at a live block whose capacity
matches the cached one. -/
def rs_okb (h : Heap) (s : rs_string) : Bool :=
  h.blocks.all (fun q => decide (q.1 < h.next)) &&
  decide (s.len ≤ rs_string_cap s) &&
  decide (s.len + 1 ≤ (rs__buf h s).length) &&
  decide ((rs__buf h s).length ≤ rs_string_cap s + 1) &&
  (match s.p with
   | none => decide (s.cap = RS_SSO_CAP)
   | some id =>
     match h.lookup id with
     | none => false
     | some blk => decide (blk.cap = s.cap) && decide (1 ≤ blk.rc))

/-- Sole ownership: inline, or a heap block with refcount exactly 1. -/
def rs_unique (h : Heap) (s : rs_string) : Bool :=
  match s.p with
  | none => true
  | some id =>
    match h.lookup id with
    | none => false
    | some blk => decide (blk.rc = 1)

/-- Join a token list with a separator between consecutive tokens (the
concatenation a split must reconstruct). -/
def rs__joinSep (sep : List Byte) : List (List Byte) → List Byte
  | [] => []
  | [t] => t
  | t :: u :: ts => t ++ sep ++ rs__joinSep sep (u :: ts)

/-! ### Concrete states used in the examples -/

/-- The always-succeeding allocator. -/
def aT : Alloc := fun _ => true

/-- The always-failing allocator. -/
def aF : Alloc := fun _ => false

/-- The empty heap. -/
def h0 : Heap := ⟨[], 0⟩

/-- Inline `"hi"`. -/
def sHi : rs_string :=
  { len := 2, off := 0, p := none, cap := RS_SSO_CAP, sso := [104, 105, 0] }

/-- Inline `" \t hi  "`. -/
def sTr : rs_string :=
  { len := 7, off := 0, p := none, cap := RS_SSO_CAP, sso := [32, 9, 32, 104, 105, 32, 32, 0] }

/-- Inline `"one fish two fish"`. -/
def sFish : rs_string :=
  { len := 17, off := 0, p := none, cap := RS_SSO_CAP,
    sso := [111, 110, 101, 32, 102, 105, 115, 104, 32, 116, 119, 111, 32,
            102, 105, 115, 104, 0] }

/-- Inline `"aa"`. -/
def sAA : rs_string :=
  { len := 2, off := 0, p := none, cap := RS_SSO_CAP, sso := [97, 97, 0] }

/-- A heap with one live block of 26 `'a'` bytes, refcount 1. -/
def hC1 : Heap :=
  ⟨[(0, { cap := 26, rc := 1, data := List.replicate 26 97 ++ [0] })], 1⟩

/-- The sole owner of the block of `hC1`. -/
def srcC1 : rs_string :=
  { len := 26, off := 0, p := some 0, cap := 26, sso := [0] }

/-- A heap with one block holding `"a"`, refcount 2 (shared). -/
def hC9 : Heap := ⟨[(0, { cap := 23, rc := 2, data := [97, 0] })], 1⟩

/-- One of the two owners of the block of `hC9`. -/
def sC9 : rs_string :=
  { len := 1, off := 0, p := some 0, cap := 23, sso := [0] }

/-- A heap with one block holding `"hi"`, refcount 1. -/
def hW7 : Heap := ⟨[(0, { cap := 23, rc := 1, data := [104, 105, 0] })], 1⟩

/-- The heap-representation owner of the block of `hW7`. -/
def sW7 : rs_string :=
  { len := 2, off := 0, p := some 0, cap := 23, sso := [0] }

/-! ### Association-list heap lemmas -/

theorem rs__find_map_if_self (l : List (Nat × rs__hdr)) (id : Nat) (b : rs__hdr)
    (hl : (l.find? (fun q => q.1 == id)).isSome = true) :
    (l.map (fun q => if q.1 = id then (id, b) else q)).find? (fun q => q.1 == id)
      = some (id, b) := by
  induction l with
  | nil => simp at hl
  | cons q t ih =>
    by_cases hq : q.1 = id
    · rw [List.map_cons, if_pos hq, List.find?_cons_of_pos _ (by simp)]
    · rw [List.find?_cons_of_neg _ (by simp [hq])] at hl
      rw [List.map_cons, if_neg hq, List.find?_cons_of_neg _ (by simp [hq])]
      exact ih hl

theorem rs__find_map_if_ne (l : List (Nat × rs__hdr)) (id j : Nat) (b : rs__hdr)
    (hne : j ≠ id) :
    (l.map (fun q => if q.1 = id then (id, b) else q)).find? (fun q => q.1 == j)
      = l.find? (fun q => q.1 == j) := by
  induction l with
  | nil => simp
  | cons q t ih =>
    by_cases hq : q.1 = id
    · have h1 : (q.1 == j) = false := by simp [hq, Ne.symm hne]
      rw [List.map_cons, if_pos hq, List.find?_cons_of_neg _ (by simp [Ne.symm hne]),
        List.find?_cons_of_neg _ (by simp [h1]), ih]
    · by_cases hj : q.1 = j
      · rw [List.map_cons, if_neg hq, List.find?_cons_of_pos _ (by simp [hj]),
          List.find?_cons_of_pos _ (by simp [hj])]
      · rw [List.map_cons, if_neg hq, List.find?_cons_of_neg _ (by simp [hj]),
          List.find?_cons_of_neg _ (by simp [hj]), ih]

theorem Heap.lookup_update_self {h : Heap} {id : Nat} {blk : rs__hdr} (b : rs__hdr)
    (hl : h.lookup id = some blk) : (h.update id b).lookup id = some b := by
  have hsome : (h.blocks.find? (fun q => q.1 == id)).isSome = true := by
    unfold Heap.lookup at hl
    cases hf : h.blocks.find? (fun q => q.1 == id) with
    | none => rw [hf] at hl; simp at hl
    | some q => simp [hf]
  unfold Heap.lookup Heap.update
  simp only
  rw [rs__find_map_if_self _ _ _ hsome]
  rfl

theorem Heap.lookup_update_ne {h : Heap} {id j : Nat} (b : rs__hdr) (hne : j ≠ id) :
    (h.update id b).lookup j = h.lookup j := by
  unfold Heap.lookup Heap.update
  simp only
  rw [rs__find_map_if_ne _ _ _ _ hne]

theorem Heap.update_next (h : Heap) (id : Nat) (b : rs__hdr) :
    (h.update id b).next = h.next := rfl

theorem Heap.lookup_alloc_self (h : Heap) (b : rs__hdr) :
    (h.alloc b).1.lookup (h.alloc b).2 = some b := by
  simp [Heap.alloc, Heap.lookup, List.find?_cons_of_pos]

theorem Heap.lookup_alloc_ne (h : Heap) (b : rs__hdr) {j : Nat} (hne : j ≠ h.next) :
    (h.alloc b).1.lookup j = h.lookup j := by
  unfold Heap.alloc Heap.lookup
  simp only
  rw [List.find?_cons_of_neg _ (by simp [Ne.symm hne])]

/-- Keys present in the heap are below the fresh counter. -/
theorem Heap.lookup_lt_next {h : Heap} (hwf : ∀ q ∈ h.blocks, q.1 < h.next)
    {j : Nat} {blk : rs__hdr} (hl : h.lookup j = some blk) : j < h.next := by
  unfold Heap.lookup at hl
  cases hf : h.blocks.find? (fun q => q.1 == j) with
  | none => rw [hf] at hl; simp at hl
  | some q =>
    have hmem := List.mem_of_find?_eq_some hf
    have hpred := List.find?_some hf
    have hj : q.1 = j := by simpa using hpred
    have := hwf q hmem
    omega

theorem Heap.wf_update {h : Heap} (hwf : ∀ q ∈ h.blocks, q.1 < h.next)
    (id : Nat) (b : rs__hdr) :
    ∀ q ∈ (h.update id b).blocks, q.1 < (h.update id b).next := by
  intro q hq
  simp only [Heap.update, List.mem_map] at hq ⊢
  obtain ⟨q0, hq0, hq0e⟩ := hq
  have h0 := hwf q0 hq0
  by_cases hcase : q0.1 = id
  · rw [if_pos hcase] at hq0e
    subst hq0e
    simpa [← hcase] using h0
  · rw [if_neg hcase] at hq0e
    subst hq0e
    exact h0

theorem Heap.wf_alloc {h : Heap} (hwf : ∀ q ∈ h.blocks, q.1 < h.next) (b : rs__hdr) :
    ∀ q ∈ (h.alloc b).1.blocks, q.1 < (h.alloc b).1.next := by
  intro q hq
  simp only [Heap.alloc, List.mem_cons] at hq
  rcases hq with rfl | hq
  · simp [Heap.alloc]
  · have := hwf q hq
    simp only [Heap.alloc]
    omega

/-! ### memWrite algebra -/

theorem memWrite_length (buf bytes : List Byte) (pos : Nat) :
    (memWrite buf pos bytes).length = max buf.length (pos + bytes.length) := by
  simp only [memWrite, List.length_append, List.length_take, List.length_replicate,
    List.length_drop]
  omega

theorem memWrite_of_le (buf bytes : List Byte) (pos : Nat) (hp : pos ≤ buf.length) :
    memWrite buf pos bytes = buf.take pos ++ bytes ++ buf.drop (pos + bytes.length) := by
  simp [memWrite, Nat.sub_eq_zero_of_le hp]

theorem memWrite_take_front (buf bytes : List Byte) (pos k : Nat)
    (hk : k ≤ pos) (hkb : k ≤ buf.length) :
    (memWrite buf pos bytes).take k = buf.take k := by
  unfold memWrite
  rw [List.append_assoc, List.append_assoc, List.take_append_eq_append_take,
    List.take_take]
  have h1 : min k pos = k := by omega
  have h2 : k - (buf.take pos).length = 0 := by
    simp only [List.length_take]
    omega
  rw [h1, h2, List.take_zero, List.append_nil]

/-- Dropping a whole left part of an append. -/
theorem append_drop_full (l1 l2 : List Byte) (n : Nat) (h : l1.length ≤ n) :
    (l1 ++ l2).drop n = l2.drop (n - l1.length) := by
  rw [List.drop_append_eq_append_drop, List.drop_eq_nil_of_le h, List.nil_append]

/-- Dropping to the start of the written range exposes the written bytes followed
by the untouched old tail. -/
theorem memWrite_drop_pos (buf bytes : List Byte) (pos : Nat) :
    (memWrite buf pos bytes).drop pos = bytes ++ buf.drop (pos + bytes.length) := by
  unfold memWrite
  rw [List.append_assoc, List.append_assoc]
  rw [append_drop_full _ _ _ (by simp only [List.length_take]; omega)]
  rw [append_drop_full _ _ _ (by
    simp only [List.length_take, List.length_replicate]
    omega)]
  have h0 : pos - (buf.take pos).length - (List.replicate (pos - buf.length) (0 : Byte)).length = 0 := by
    simp only [List.length_take, List.length_replicate]
    omega
  rw [h0, List.drop_zero]

/-- Taking past the write position splits into the untouched prefix and the rest. -/
theorem memWrite_take_split (buf bytes : List Byte) (pos k : Nat)
    (hp : pos ≤ buf.length) (hk : pos ≤ k) :
    (memWrite buf pos bytes).take k
      = buf.take pos ++ (bytes ++ buf.drop (pos + bytes.length)).take (k - pos) := by
  rw [memWrite_of_le _ _ _ hp, List.append_assoc, List.take_append_eq_append_take]
  have h1 : (buf.take pos).length = pos := by
    simp only [List.length_take]
    omega
  rw [List.take_of_length_le (by omega : (buf.take pos).length ≤ k), h1]

/-! ### Well-formedness unpacking -/

theorem rs_okb_iff (h : Heap) (s : rs_string) :
    rs_okb h s = true ↔
      ((∀ q ∈ h.blocks, q.1 < h.next) ∧
       s.len ≤ rs_string_cap s ∧
       s.len + 1 ≤ (rs__buf h s).length ∧
       (rs__buf h s).length ≤ rs_string_cap s + 1 ∧
       (s.p = none → s.cap = RS_SSO_CAP) ∧
       (∀ id, s.p = some id → ∃ blk, h.lookup id = some blk ∧ blk.cap = s.cap ∧ 1 ≤ blk.rc)) := by
  unfold rs_okb
  cases hp : s.p with
  | none =>
    simp only [List.all_eq_true, Bool.and_eq_true, decide_eq_true_eq]
    simp
    tauto
  | some id =>
    cases hl : h.lookup id with
    | none =>
      simp only [List.all_eq_true, Bool.and_eq_true, decide_eq_true_eq, hl]
      simp [hl]
    | some blk =>
      simp only [List.all_eq_true, Bool.and_eq_true, decide_eq_true_eq, hl]
      simp [hl]
      tauto

theorem rs_unique_iff (h : Heap) (s : rs_string) :
    rs_unique h s = true ↔
      ∀ id, s.p = some id → ∃ blk, h.lookup id = some blk ∧ blk.rc = 1 := by
  unfold rs_unique
  cases hp : s.p with
  | none => simp
  | some id =>
    cases hl : h.lookup id with
    | none => simp [hl]
    | some blk => simp [hl]

/-! ### ensure_unique -/

theorem rs__ensure_unique_fail_eq (h : Heap) (s : rs_string) (a : Alloc) :
    (rs__ensure_unique h s a).1 = 0 ∨ rs__ensure_unique h s a = (-1, h, s) := by
  cases hp : s.p with
  | none => left; simp [rs__ensure_unique, hp]
  | some id =>
    cases hl : h.lookup id with
    | none => left; simp [rs__ensure_unique, hp, hl]
    | some blk =>
      by_cases h1 : blk.rc = 1
      · left; simp [rs__ensure_unique, hp, hl, h1]
      · by_cases h2 : a (rs__hdr_size + blk.cap + 1) = true
        · left; simp [rs__ensure_unique, hp, hl, h1, h2]
        · right; simp [rs__ensure_unique, hp, hl, h1, h2]

theorem rs__ensure_unique_of_unique (h : Heap) (s : rs_string) (a : Alloc)
    (hu : rs_unique h s = true) : rs__ensure_unique h s a = (0, h, s) := by
  cases hp : s.p with
  | none => simp [rs__ensure_unique, hp]
  | some id =>
    obtain ⟨blk', hl', hrc'⟩ := (rs_unique_iff h s).mp hu id hp
    have hrc : blk'.rc = 1 := hrc'
    simp [rs__ensure_unique, hp, hl', hrc]

theorem rs__ensure_unique_ok (h : Heap) (s : rs_string) (a : Alloc)
    (hk : rs_okb h s = true) (h0 : (rs__ensure_unique h s a).1 = 0) :
    rs_okb (rs__ensure_unique h s a).2.1 (rs__ensure_unique h s a).2.2 = true ∧
    rs_string_content (rs__ensure_unique h s a).2.1 (rs__ensure_unique h s a).2.2
      = rs_string_content h s ∧
    (rs__ensure_unique h s a).2.2.len = s.len ∧
    rs_string_cap (rs__ensure_unique h s a).2.2 = rs_string_cap s ∧
    (rs__ensure_unique h s a).2.2.p.isSome = s.p.isSome ∧
    rs_unique (rs__ensure_unique h s a).2.1 (rs__ensure_unique h s a).2.2 = true := by
  obtain ⟨hwf, hlen, hbuf1, hbuf2, hinl, hblk⟩ := (rs_okb_iff h s).mp hk
  cases hp : s.p with
  | none =>
    have hres : rs__ensure_unique h s a = (0, h, s) := by
      simp [rs__ensure_unique, hp]
    rw [hres]
    exact ⟨hk, rfl, rfl, rfl, by simp [hp], by simp [rs_unique, hp]⟩
  | some id =>
    obtain ⟨blk, hl, hcap, hrc⟩ := hblk id hp
    have hbufeq : rs__buf h s = blk.data := by simp [rs__buf, hp, hl]
    have hcapeq : rs_string_cap s = s.cap := by
      simp [rs_string_cap, rs_string_is_heap, hp]
    by_cases h1 : blk.rc = 1
    · have hres : rs__ensure_unique h s a = (0, h, s) := by
        simp [rs__ensure_unique, hp, hl, h1]
      rw [hres]
      exact ⟨hk, rfl, rfl, rfl, by simp [hp], by simp [rs_unique, hp, hl, h1]⟩
    · by_cases h2 : a (rs__hdr_size + blk.cap + 1) = true
      · have hres : rs__ensure_unique h s a =
            (0,
             ((Heap.update h id { blk with rc := blk.rc - 1 }).alloc
               { cap := blk.cap, rc := 1, data := blk.data.take (s.len + 1) }).1,
             { s with
               p := some ((Heap.update h id { blk with rc := blk.rc - 1 }).alloc
                 { cap := blk.cap, rc := 1, data := blk.data.take (s.len + 1) }).2,
               cap := blk.cap }) := by
          simp [rs__ensure_unique, hp, hl, h1, h2]
        rw [hres]
        dsimp only
        set hq := Heap.update h id { blk with rc := blk.rc - 1 } with hhq
        set nb : rs__hdr := { cap := blk.cap, rc := 1, data := blk.data.take (s.len + 1) } with hnb
        have hlook : (hq.alloc nb).1.lookup (hq.alloc nb).2 = some nb :=
          Heap.lookup_alloc_self hq nb
        have hbuf' : rs__buf (hq.alloc nb).1
            { s with p := some (hq.alloc nb).2, cap := blk.cap } = nb.data := by
          simp [rs__buf, hlook]
        have hdlen : blk.data.length = (rs__buf h s).length := by rw [hbufeq]
        have hcap' : rs_string_cap { s with p := some (hq.alloc nb).2, cap := blk.cap }
            = blk.cap := by
          simp [rs_string_cap, rs_string_is_heap]
        refine ⟨?_, ?_, rfl, ?_, by simp [hp], ?_⟩
        · rw [rs_okb_iff]
          refine ⟨Heap.wf_alloc (Heap.wf_update hwf id _) nb, ?_, ?_, ?_, ?_, ?_⟩
          · rw [hcap']
            dsimp only
            rw [hcapeq] at hlen
            omega
          · rw [hbuf']
            dsimp only
            rw [List.length_take]
            omega
          · rw [hbuf', hcap']
            dsimp only
            rw [List.length_take]
            rw [hcapeq] at hlen
            omega
          · intro hcon
            simp at hcon
          · intro id' hid'
            dsimp only at hid'
            rw [Option.some.injEq] at hid'
            subst hid'
            exact ⟨nb, hlook, rfl, by simp [hnb]⟩
        · show rs_string_content _ _ = rs_string_content h s
          unfold rs_string_content
          rw [hbuf', hbufeq]
          dsimp only
          rw [List.take_take]
          congr 1
          omega
        · rw [hcap', hcapeq, hcap]
        · rw [rs_unique_iff]
          intro id' hid'
          dsimp only at hid'
          rw [Option.some.injEq] at hid'
          subst hid'
          exact ⟨nb, hlook, by simp [hnb]⟩
      · exfalso
        have : rs__ensure_unique h s a = (-1, h, s) := by
          simp [rs__ensure_unique, hp, hl, h1, h2]
        rw [this] at h0
        simp at h0

/-! ### reserve_ex -/

theorem rs_string_reserve_ex_spec (h : Heap) (s : rs_string) (need : Nat) (a : Alloc)
    (hk : rs_okb h s = true) :
    (need ≤ rs_string_cap s → rs_string_reserve_ex h s need a = (0, h, s)) ∧
    ((rs_string_reserve_ex h s need a).1 = 0 ∨ (rs_string_reserve_ex h s need a).1 = -1) ∧
    ((rs_string_reserve_ex h s need a).1 = -1 →
      rs_okb (rs_string_reserve_ex h s need a).2.1 (rs_string_reserve_ex h s need a).2.2 = true ∧
      rs_string_content (rs_string_reserve_ex h s need a).2.1
        (rs_string_reserve_ex h s need a).2.2 = rs_string_content h s ∧
      (rs_string_reserve_ex h s need a).2.2.len = s.len ∧
      rs_string_cap (rs_string_reserve_ex h s need a).2.2 = rs_string_cap s ∧
      (rs_string_reserve_ex h s need a).2.2.p.isSome = s.p.isSome) ∧
    ((rs_string_reserve_ex h s need a).1 = 0 →
      rs_okb (rs_string_reserve_ex h s need a).2.1 (rs_string_reserve_ex h s need a).2.2 = true ∧
      rs_string_content (rs_string_reserve_ex h s need a).2.1
        (rs_string_reserve_ex h s need a).2.2 = rs_string_content h s ∧
      (rs_string_reserve_ex h s need a).2.2.len = s.len ∧
      (s.p.isSome = true → (rs_string_reserve_ex h s need a).2.2.p.isSome = true) ∧
      need ≤ rs_string_cap (rs_string_reserve_ex h s need a).2.2 ∧
      rs_string_cap (rs_string_reserve_ex h s need a).2.2 =
        (if need ≤ rs_string_cap s then rs_string_cap s
         else max need ((rs_string_cap s + rs_string_cap s / 2 + 1) % SIZE_BOUND)) ∧
      (rs_string_reserve_ex h s need a = (0, h, s) ∨
       rs_unique (rs_string_reserve_ex h s need a).2.1
         (rs_string_reserve_ex h s need a).2.2 = true)) := by
  by_cases hle : need ≤ rs_string_cap s
  · have hres : rs_string_reserve_ex h s need a = (0, h, s) := by
      simp [rs_string_reserve_ex, hle]
    rw [hres]
    refine ⟨fun _ => rfl, Or.inl rfl, by intro hcon; simp at hcon, ?_⟩
    intro _
    exact ⟨hk, rfl, rfl, fun hh => hh, hle, by simp [hle], Or.inl rfl⟩
  · rcases rs__ensure_unique_fail_eq h s a with heu0 | heuF
    · obtain ⟨okb1, cont1, len1, cap1, isSome1, uniq1⟩ := rs__ensure_unique_ok h s a hk heu0
      obtain ⟨hwf1, hlen1, hbufa1, hbufb1, hinl1, hblk1⟩ := (rs_okb_iff _ _).mp okb1
      cases hsp : (rs__ensure_unique h s a).2.2.p with
      | some id =>
        obtain ⟨blk, hlook, hbcap, hbrc⟩ := hblk1 id hsp
        have hbufeq1 : rs__buf (rs__ensure_unique h s a).2.1 (rs__ensure_unique h s a).2.2
            = blk.data := by
          simp [rs__buf, hsp, hlook]
        have hcapeq1 : rs_string_cap (rs__ensure_unique h s a).2.2
            = (rs__ensure_unique h s a).2.2.cap := by
          simp [rs_string_cap, rs_string_is_heap, hsp]
        by_cases h2 : a (rs__hdr_size +
            (if (rs_string_cap s + rs_string_cap s / 2 + 1) % SIZE_BOUND < need then need
             else (rs_string_cap s + rs_string_cap s / 2 + 1) % SIZE_BOUND) + 1) = true
        · have hres : rs_string_reserve_ex h s need a =
              (0,
               Heap.update (rs__ensure_unique h s a).2.1 id
                 { blk with cap :=
                     (if (rs_string_cap s + rs_string_cap s / 2 + 1) % SIZE_BOUND < need then need
                      else (rs_string_cap s + rs_string_cap s / 2 + 1) % SIZE_BOUND) },
               { (rs__ensure_unique h s a).2.2 with cap :=
                   (if (rs_string_cap s + rs_string_cap s / 2 + 1) % SIZE_BOUND < need then need
                    else (rs_string_cap s + rs_string_cap s / 2 + 1) % SIZE_BOUND) }) := by
            simp only [rs_string_reserve_ex, if_neg hle]
            rw [if_neg (by simp [heu0])]
            rw [hsp]
            simp only [hlook, h2, if_pos]
          set ncap := (if (rs_string_cap s + rs_string_cap s / 2 + 1) % SIZE_BOUND < need then need
                       else (rs_string_cap s + rs_string_cap s / 2 + 1) % SIZE_BOUND) with hncap
          have hneed_le : need ≤ ncap := by
            rw [hncap]
            split
            · exact Nat.le_refl _
            · omega
          have hcap_lt : rs_string_cap s < ncap := by omega
          rw [hres]
          dsimp only
          have hlook' : (Heap.update (rs__ensure_unique h s a).2.1 id { blk with cap := ncap }).lookup id
              = some { blk with cap := ncap } := Heap.lookup_update_self _ hlook
          have hbuf' : rs__buf (Heap.update (rs__ensure_unique h s a).2.1 id { blk with cap := ncap })
              { (rs__ensure_unique h s a).2.2 with cap := ncap } = blk.data := by
            simp [rs__buf, hsp, hlook']
          have hcap' : rs_string_cap { (rs__ensure_unique h s a).2.2 with cap := ncap } = ncap := by
            simp [rs_string_cap, rs_string_is_heap, hsp]
          refine ⟨fun hcon => absurd hcon hle, Or.inl rfl, by intro hcon; simp at hcon, ?_⟩
          intro _
          refine ⟨?_, ?_, len1, ?_, ?_, ?_, ?_⟩
          · rw [rs_okb_iff]
            refine ⟨Heap.wf_update hwf1 id _, ?_, ?_, ?_, ?_, ?_⟩
            · rw [hcap']
              dsimp only
              omega
            · rw [hbuf']
              dsimp only
              rw [hbufeq1] at hbufa1
              omega
            · rw [hbuf', hcap']
              rw [hbufeq1] at hbufb1
              rw [hcapeq1, ← hbcap] at hbufb1
              rw [hcapeq1] at cap1
              omega
            · intro hcon
              simp [hsp] at hcon
            · intro id' hid'
              dsimp only at hid'
              rw [hsp, Option.some.injEq] at hid'
              subst hid'
              exact ⟨_, hlook', rfl, by dsimp only; omega⟩
          · unfold rs_string_content
            rw [hbuf']
            dsimp only
            have hc := cont1
            unfold rs_string_content at hc
            rw [hbufeq1] at hc
            exact hc
          · intro _
            simp [hsp]
          · rw [hcap']
            exact hneed_le
          · rw [hcap', if_neg hle]
            rw [hncap]
            split
            · omega
            · omega
          · refine Or.inr ?_
            obtain ⟨blk2, hlook2, hrc2⟩ := (rs_unique_iff _ _).mp uniq1 id hsp
            rw [hlook, Option.some.injEq] at hlook2
            subst hlook2
            rw [rs_unique_iff]
            intro id2 hid2
            dsimp only at hid2
            rw [hsp, Option.some.injEq] at hid2
            subst hid2
            exact ⟨_, hlook', hrc2⟩
        · have hres : rs_string_reserve_ex h s need a =
              (-1, (rs__ensure_unique h s a).2.1, (rs__ensure_unique h s a).2.2) := by
            simp only [rs_string_reserve_ex, if_neg hle]
            rw [if_neg (by simp [heu0])]
            rw [hsp]
            simp only [hlook, h2]
            simp
          rw [hres]
          refine ⟨fun hcon => absurd hcon hle, Or.inr rfl, ?_, by intro hcon; simp at hcon⟩
          intro _
          exact ⟨okb1, cont1, len1, cap1, by rw [isSome1]⟩
      | none =>
        by_cases h2 : a (rs__hdr_size +
            (if (rs_string_cap s + rs_string_cap s / 2 + 1) % SIZE_BOUND < need then need
             else (rs_string_cap s + rs_string_cap s / 2 + 1) % SIZE_BOUND) + 1) = true
        · set ncap := (if (rs_string_cap s + rs_string_cap s / 2 + 1) % SIZE_BOUND < need then need
                       else (rs_string_cap s + rs_string_cap s / 2 + 1) % SIZE_BOUND) with hncap
          have hres : rs_string_reserve_ex h s need a =
              (0,
               ((rs__ensure_unique h s a).2.1.alloc
                 { cap := ncap, rc := 1,
                   data := (rs__ensure_unique h s a).2.2.sso.take
                     ((rs__ensure_unique h s a).2.2.len + 1) }).1,
               { (rs__ensure_unique h s a).2.2 with
                 p := some ((rs__ensure_unique h s a).2.1.alloc
                   { cap := ncap, rc := 1,
                     data := (rs__ensure_unique h s a).2.2.sso.take
                       ((rs__ensure_unique h s a).2.2.len + 1) }).2,
                 cap := ncap }) := by
            simp only [rs_string_reserve_ex, if_neg hle]
            rw [if_neg (by simp [heu0])]
            rw [hsp]
            simp only [h2, if_pos, hncap]
          have hneed_le : need ≤ ncap := by
            rw [hncap]
            split
            · exact Nat.le_refl _
            · omega
          have hcap_lt : rs_string_cap s < ncap := by omega
          have hssoeq : rs__buf (rs__ensure_unique h s a).2.1 (rs__ensure_unique h s a).2.2
              = (rs__ensure_unique h s a).2.2.sso := by
            simp [rs__buf, hsp]
          have hcapeq1 : rs_string_cap (rs__ensure_unique h s a).2.2 = RS_SSO_CAP := by
            simp [rs_string_cap, rs_string_is_heap, hsp]
          rw [hres]
          dsimp only
          set nb : rs__hdr :=
            { cap := ncap, rc := 1,
              data := (rs__ensure_unique h s a).2.2.sso.take
                ((rs__ensure_unique h s a).2.2.len + 1) } with hnb
          have hlook' : ((rs__ensure_unique h s a).2.1.alloc nb).1.lookup
              ((rs__ensure_unique h s a).2.1.alloc nb).2 = some nb :=
            Heap.lookup_alloc_self _ nb
          have hbuf' : rs__buf ((rs__ensure_unique h s a).2.1.alloc nb).1
              { (rs__ensure_unique h s a).2.2 with
                p := some ((rs__ensure_unique h s a).2.1.alloc nb).2, cap := ncap } = nb.data := by
            simp [rs__buf, hlook']
          have hcap' : rs_string_cap
              { (rs__ensure_unique h s a).2.2 with
                p := some ((rs__ensure_unique h s a).2.1.alloc nb).2, cap := ncap } = ncap := by
            simp [rs_string_cap, rs_string_is_heap]
          have hssolen : (rs__ensure_unique h s a).2.2.len + 1
              ≤ (rs__ensure_unique h s a).2.2.sso.length := by
            rw [hssoeq] at hbufa1
            exact hbufa1
          refine ⟨fun hcon => absurd hcon hle, Or.inl rfl, by intro hcon; simp at hcon, ?_⟩
          intro _
          refine ⟨?_, ?_, len1, ?_, ?_, ?_, ?_⟩
          · rw [rs_okb_iff]
            refine ⟨Heap.wf_alloc hwf1 nb, ?_, ?_, ?_, ?_, ?_⟩
            · rw [hcap']
              dsimp only
              rw [hcapeq1] at hlen1
              omega
            · rw [hbuf']
              dsimp only
              rw [List.length_take]
              omega
            · rw [hbuf', hcap']
              dsimp only
              rw [List.length_take]
              rw [hcapeq1] at hlen1
              omega
            · intro hcon
              simp at hcon
            · intro id' hid'
              dsimp only at hid'
              rw [Option.some.injEq] at hid'
              subst hid'
              exact ⟨nb, hlook', rfl, by simp [hnb]⟩
          · unfold rs_string_content
            rw [hbuf']
            dsimp only
            rw [List.take_take]
            have hmin : (rs__ensure_unique h s a).2.2.len ⊓ ((rs__ensure_unique h s a).2.2.len + 1)
                = (rs__ensure_unique h s a).2.2.len := by omega
            rw [hmin]
            have hc := cont1
            unfold rs_string_content at hc
            rw [hssoeq] at hc
            exact hc
          · intro hcon
            rw [← isSome1, hsp] at hcon
            simp at hcon
          · rw [hcap']
            exact hneed_le
          · rw [hcap', if_neg hle]
            rw [hncap]
            split
            · omega
            · omega
          · refine Or.inr ?_
            rw [rs_unique_iff]
            intro id' hid'
            dsimp only at hid'
            rw [Option.some.injEq] at hid'
            subst hid'
            exact ⟨nb, hlook', by simp [hnb]⟩
        · have hres : rs_string_reserve_ex h s need a =
              (-1, (rs__ensure_unique h s a).2.1, (rs__ensure_unique h s a).2.2) := by
            simp only [rs_string_reserve_ex, if_neg hle]
            rw [if_neg (by simp [heu0])]
            rw [hsp]
            simp only [h2]
            simp
          rw [hres]
          refine ⟨fun hcon => absurd hcon hle, Or.inr rfl, ?_, by intro hcon; simp at hcon⟩
          intro _
          exact ⟨okb1, cont1, len1, cap1, by rw [isSome1]⟩
    · have hres : rs_string_reserve_ex h s need a = (-1, h, s) := by
        simp only [rs_string_reserve_ex, if_neg hle]
        rw [heuF]
        simp
      rw [hres]
      refine ⟨fun hcon => absurd hcon hle, Or.inr rfl, ?_, by intro hcon; simp at hcon⟩
      intro _
      exact ⟨hk, rfl, rfl, rfl, rfl⟩

/-! ### store -/

theorem rs__store_spec (h : Heap) (s : rs_string) (pos : Nat) (bytes : List Byte)
    (hk : rs_okb h s = true) :
    rs__buf (rs__store h s pos bytes).1 (rs__store h s pos bytes).2
      = memWrite (rs__buf h s) pos bytes ∧
    (rs__store h s pos bytes).2.len = s.len ∧
    (rs__store h s pos bytes).2.p = s.p ∧
    (rs__store h s pos bytes).2.cap = s.cap ∧
    rs_unique (rs__store h s pos bytes).1 (rs__store h s pos bytes).2 = rs_unique h s ∧
    (pos + bytes.length ≤ rs_string_cap s + 1 →
      rs_okb (rs__store h s pos bytes).1 (rs__store h s pos bytes).2 = true) := by
  obtain ⟨hwf, hlen, hbufa, hbufb, hinl, hblk⟩ := (rs_okb_iff h s).mp hk
  cases hp : s.p with
  | none =>
    have hres : rs__store h s pos bytes = (h, { s with sso := memWrite s.sso pos bytes }) := by
      simp [rs__store, hp]
    have hbufeq : rs__buf h s = s.sso := by simp [rs__buf, hp]
    have hcapeq : rs_string_cap s = RS_SSO_CAP := by
      simp [rs_string_cap, rs_string_is_heap, hp]
    rw [hres]
    have hbuf' : rs__buf h { s with sso := memWrite s.sso pos bytes }
        = memWrite s.sso pos bytes := by
      simp [rs__buf, hp]
    refine ⟨by rw [hbuf', hbufeq], rfl, by simp [hp], rfl, by simp [rs_unique, hp], ?_⟩
    · intro hfit
      rw [rs_okb_iff]
      have hcap2 : rs_string_cap { s with sso := memWrite s.sso pos bytes } = RS_SSO_CAP := by
        simp [rs_string_cap, rs_string_is_heap, hp]
      refine ⟨hwf, ?_, ?_, ?_, ?_, ?_⟩
      · rw [hcap2]
        rw [hcapeq] at hlen
        exact hlen
      · rw [hbuf', memWrite_length]
        rw [hbufeq] at hbufa
        dsimp only
        omega
      · rw [hbuf', memWrite_length, hcap2]
        rw [hbufeq] at hbufb
        rw [hcapeq] at hfit
        omega
      · intro _
        exact hinl hp
      · intro id' hid'
        dsimp only at hid'
        rw [hp] at hid'
        simp at hid'
  | some id =>
    obtain ⟨blk, hlook, hbcap, hbrc⟩ := hblk id hp
    have hres : rs__store h s pos bytes =
        (Heap.update h id { blk with data := memWrite blk.data pos bytes }, s) := by
      simp [rs__store, hp, hlook]
    have hbufeq : rs__buf h s = blk.data := by simp [rs__buf, hp, hlook]
    have hcapeq : rs_string_cap s = s.cap := by
      simp [rs_string_cap, rs_string_is_heap, hp]
    rw [hres]
    have hlook' : (Heap.update h id { blk with data := memWrite blk.data pos bytes }).lookup id
        = some { blk with data := memWrite blk.data pos bytes } :=
      Heap.lookup_update_self _ hlook
    have hbuf' : rs__buf (Heap.update h id { blk with data := memWrite blk.data pos bytes }) s
        = memWrite blk.data pos bytes := by
      simp [rs__buf, hp, hlook']
    refine ⟨by rw [hbuf', hbufeq], rfl, by simp [hp], rfl, by simp [rs_unique, hp, hlook, hlook'], ?_⟩
    intro hfit
    rw [rs_okb_iff]
    dsimp only
    refine ⟨Heap.wf_update hwf id _, hlen, ?_, ?_, ?_, ?_⟩
    · rw [hbuf', memWrite_length]
      rw [hbufeq] at hbufa
      omega
    · rw [hbuf', memWrite_length]
      rw [hbufeq] at hbufb
      rw [hcapeq] at hfit hbufb ⊢
      omega
    · intro hcon
      rw [hp] at hcon
      simp at hcon
    · intro id' hid'
      rw [hp, Option.some.injEq] at hid'
      subst hid'
      exact ⟨_, hlook', hbcap, hbrc⟩

/-! ### erase -/

theorem rs__erase_content_calc (b : List Byte) (L pos n : Nat)
    (hbL : L + 1 ≤ b.length) (hpos : pos ≤ L) (hn : n ≤ L - pos) :
    (memWrite b pos ((b.drop (pos + n)).take (L - (pos + n) + 1))).take (L - n)
      = (b.take L).take pos ++ (b.take L).drop (pos + n) := by
  have hlenM : ((b.drop (pos + n)).take (L - (pos + n) + 1)).length = L - (pos + n) + 1 := by
    rw [List.length_take, List.length_drop]
    omega
  rw [memWrite_take_split _ _ _ _ (by omega) (by omega)]
  rw [List.take_append_eq_append_take, hlenM]
  have h2 : L - n - pos - (L - (pos + n) + 1) = 0 := by omega
  rw [h2, List.take_zero, List.append_nil, List.take_take]
  have h3 : (L - n - pos) ⊓ (L - (pos + n) + 1) = L - n - pos := by omega
  rw [h3, List.take_take, List.drop_take]
  have h4 : pos ⊓ L = pos := by omega
  have h5 : L - (pos + n) = L - n - pos := by omega
  rw [h4, h5]

theorem rs_string_erase_of_eu_fail (h : Heap) (s : rs_string) (pos n0 : Nat) (a : Alloc)
    (hple : pos ≤ s.len) (hf : (rs__ensure_unique h s a).1 ≠ 0) :
    rs_string_erase h s pos n0 a = (-1, h, s) := by
  have hngt : ¬ pos > s.len := by omega
  rcases rs__ensure_unique_fail_eq h s a with h0 | hF
  · exact absurd h0 hf
  · simp only [rs_string_erase, if_neg hngt]
    rw [hF]
    simp

theorem rs_string_erase_spec (h : Heap) (s : rs_string) (pos n0 : Nat) (a : Alloc)
    (hk : rs_okb h s = true) (hple : pos ≤ s.len) :
    ((rs_string_erase h s pos n0 a).1 = 0 ∨
      rs_string_erase h s pos n0 a = (-1, h, s)) ∧
    ((rs_string_erase h s pos n0 a).1 = 0 →
      rs_okb (rs_string_erase h s pos n0 a).2.1 (rs_string_erase h s pos n0 a).2.2 = true ∧
      rs_string_content (rs_string_erase h s pos n0 a).2.1 (rs_string_erase h s pos n0 a).2.2
        = (rs_string_content h s).take pos
          ++ (rs_string_content h s).drop (pos + min n0 (s.len - pos)) ∧
      (rs_string_erase h s pos n0 a).2.2.len = s.len - min n0 (s.len - pos) ∧
      rs_string_cap (rs_string_erase h s pos n0 a).2.2 = rs_string_cap s ∧
      (rs_string_erase h s pos n0 a).2.2.p.isSome = s.p.isSome ∧
      rs_unique (rs_string_erase h s pos n0 a).2.1 (rs_string_erase h s pos n0 a).2.2 = true) := by
  have hngt : ¬ pos > s.len := by omega
  have hneq : (if pos + n0 > s.len then s.len - pos else n0) = min n0 (s.len - pos) := by
    split <;> omega
  rcases rs__ensure_unique_fail_eq h s a with heu0 | heuF
  · obtain ⟨okb1, cont1, len1, cap1, isSome1, uniq1⟩ := rs__ensure_unique_ok h s a hk heu0
    obtain ⟨hwf1, hlen1, hbufa1, hbufb1, hinl1, hblk1⟩ := (rs_okb_iff _ _).mp okb1
    set E := rs__ensure_unique h s a with hE
    set n := min n0 (s.len - pos) with hn
    set moved := ((rs__buf E.2.1 E.2.2).drop (pos + n)).take
        (E.2.2.len - (pos + n) + 1) with hmoved
    set ST := rs__store E.2.1 E.2.2 pos moved with hST
    have hres : rs_string_erase h s pos n0 a = (0, ST.1, { ST.2 with len := ST.2.len - n }) := by
      simp only [rs_string_erase, if_neg hngt, hneq]
      rw [if_neg (show ¬ E.1 ≠ 0 by simp [heu0])]
    have hnle : n ≤ s.len - pos := by omega
    have hmovlen : moved.length = s.len - (pos + n) + 1 := by
      rw [hmoved, List.length_take, List.length_drop, len1]
      rw [len1] at hbufa1
      omega
    have hfit : pos + moved.length ≤ rs_string_cap E.2.2 + 1 := by
      rw [hmovlen]
      rw [len1] at hlen1
      omega
    obtain ⟨stbuf, stlen, stp, stcap, stuniq, stokbf⟩ :=
      rs__store_spec E.2.1 E.2.2 pos moved okb1
    have stokb := stokbf hfit
    obtain ⟨swf, slen, sbufa, sbufb, sinl, sblk⟩ := (rs_okb_iff _ _).mp stokb
    rw [← hST] at stbuf stlen stp stcap stuniq swf slen sbufa sbufb sinl sblk
    have hbufmod : rs__buf ST.1 { ST.2 with len := ST.2.len - n } = rs__buf ST.1 ST.2 := rfl
    have hcapmod : rs_string_cap { ST.2 with len := ST.2.len - n } = rs_string_cap ST.2 := rfl
    have huniqmod : rs_unique ST.1 { ST.2 with len := ST.2.len - n } = rs_unique ST.1 ST.2 := rfl
    have hcapst : rs_string_cap ST.2 = rs_string_cap E.2.2 := by
      unfold rs_string_cap rs_string_is_heap
      rw [stp, stcap]
    rw [hres]
    refine ⟨Or.inl rfl, ?_⟩
    intro _
    refine ⟨?_, ?_, ?_, ?_, ?_, ?_⟩
    · rw [rs_okb_iff]
      dsimp only
      rw [hbufmod, hcapmod]
      refine ⟨swf, by omega, by omega, sbufb, sinl, sblk⟩
    · show (rs__buf _ _).take _ = _
      rw [hbufmod, stbuf]
      dsimp only
      rw [stlen, len1]
      have hcalc := rs__erase_content_calc (rs__buf E.2.1 E.2.2) s.len pos n
        (by rw [len1] at hbufa1; exact hbufa1) hple hnle
      rw [hmoved, len1, hcalc]
      have hCE : (rs__buf E.2.1 E.2.2).take s.len = rs_string_content h s := by
        have hc := cont1
        unfold rs_string_content at hc
        rw [len1] at hc
        exact hc
      rw [hCE]
    · dsimp only
      rw [stlen, len1]
    · rw [hcapmod, hcapst, cap1]
    · show ST.2.p.isSome = s.p.isSome
      rw [stp, isSome1]
    · rw [huniqmod, stuniq, uniq1]
  · have hres : rs_string_erase h s pos n0 a = (-1, h, s) := by
      simp only [rs_string_erase, if_neg hngt]
      rw [heuF]
      simp
    rw [hres]
    refine ⟨Or.inr rfl, ?_⟩
    intro hcon
    simp at hcon

/-! ### insert -/

theorem rs__store_parts (h : Heap) (s : rs_string) (pos : Nat) (bytes : List Byte)
    (hwf : ∀ q ∈ h.blocks, q.1 < h.next)
    (hblk : ∀ id, s.p = some id → ∃ blk, h.lookup id = some blk ∧ blk.cap = s.cap ∧ 1 ≤ blk.rc) :
    rs__buf (rs__store h s pos bytes).1 (rs__store h s pos bytes).2
      = memWrite (rs__buf h s) pos bytes ∧
    (rs__store h s pos bytes).2.len = s.len ∧
    (rs__store h s pos bytes).2.p = s.p ∧
    (rs__store h s pos bytes).2.cap = s.cap ∧
    rs_unique (rs__store h s pos bytes).1 (rs__store h s pos bytes).2 = rs_unique h s ∧
    (∀ q ∈ (rs__store h s pos bytes).1.blocks, q.1 < (rs__store h s pos bytes).1.next) ∧
    (∀ id, (rs__store h s pos bytes).2.p = some id →
      ∃ blk, (rs__store h s pos bytes).1.lookup id = some blk ∧
        blk.cap = (rs__store h s pos bytes).2.cap ∧ 1 ≤ blk.rc) := by
  cases hp : s.p with
  | none =>
    have hres : rs__store h s pos bytes = (h, { s with sso := memWrite s.sso pos bytes }) := by
      simp [rs__store, hp]
    rw [hres]
    refine ⟨by simp [rs__buf, hp], rfl, by simp [hp], rfl, by simp [rs_unique, hp], hwf, ?_⟩
    intro id' hid'
    dsimp only at hid'
    rw [hp] at hid'
    simp at hid'
  | some id =>
    obtain ⟨blk, hlook, hbcap, hbrc⟩ := hblk id hp
    have hres : rs__store h s pos bytes =
        (Heap.update h id { blk with data := memWrite blk.data pos bytes }, s) := by
      simp [rs__store, hp, hlook]
    have hlook' := Heap.lookup_update_self
      { blk with data := memWrite blk.data pos bytes } hlook
    rw [hres]
    refine ⟨?_, rfl, by simp [hp], rfl, by simp [rs_unique, hp, hlook, hlook'],
      Heap.wf_update hwf id _, ?_⟩
    · simp [rs__buf, hp, hlook, hlook']
    · intro id' hid'
      dsimp only at hid'
      rw [hp, Option.some.injEq] at hid'
      subst hid'
      exact ⟨_, hlook', hbcap, hbrc⟩

theorem rs__insert_content_calc (b v : List Byte) (L pos : Nat)
    (hbL : L + 1 ≤ b.length) (hpos : pos ≤ L) :
    (memWrite (memWrite (memWrite b (pos + v.length) ((b.drop pos).take (L - pos)))
        pos v) (L + v.length) [0]).take (L + v.length)
      = (b.take L).take pos ++ (v ++ (b.take L).drop pos) := by
  set M := (b.drop pos).take (L - pos) with hM
  have hMlen : M.length = L - pos := by
    rw [hM, List.length_take, List.length_drop]
    omega
  set b1 := memWrite b (pos + v.length) M with hb1
  have hb1len : b1.length = max b.length (pos + v.length + M.length) := by
    rw [hb1]
    exact memWrite_length b M (pos + v.length)
  have f1 : b1.take pos = b.take pos := by
    rw [hb1]
    exact memWrite_take_front b M (pos + v.length) pos (by omega) (by omega)
  have f2 : b1.drop (pos + v.length) = M ++ b.drop (pos + v.length + M.length) := by
    rw [hb1]
    exact memWrite_drop_pos b M (pos + v.length)
  have hb2 : memWrite b1 pos v
      = b.take pos ++ v ++ (M ++ b.drop (pos + v.length + M.length)) := by
    rw [memWrite_of_le b1 v pos (by rw [hb1len]; omega), f1, f2]
  have hb2len : (memWrite b1 pos v).length = b1.length := by
    rw [memWrite_length, hb1len, hMlen]
    omega
  rw [memWrite_take_front _ _ _ _ (Nat.le_refl _)
    (by rw [hb2len, hb1len, hMlen]; omega)]
  rw [hb2, List.take_append_eq_append_take]
  have hXlen : (b.take pos ++ v).length = pos + v.length := by
    rw [List.length_append, List.length_take]
    omega
  rw [@List.take_of_length_le _ (L + v.length) (b.take pos ++ v) (by rw [hXlen]; omega), hXlen]
  have hidx : L + v.length - (pos + v.length) = L - pos := by omega
  rw [hidx, List.take_append_eq_append_take]
  rw [@List.take_of_length_le _ (L - pos) M (by rw [hMlen]), hMlen, Nat.sub_self,
    List.take_zero, List.append_nil]
  have hr1 : (b.take L).take pos = b.take pos := by
    rw [List.take_take]
    congr 1
    omega
  have hr2 : (b.take L).drop pos = M := by
    rw [List.drop_take, ← hM]
  rw [hr1, hr2, List.append_assoc]

theorem rs_string_insert_spec (h : Heap) (s : rs_string) (pos0 : Nat) (v : List Byte)
    (a : Alloc) (hk : rs_okb h s = true) :
    ((rs_string_insert h s pos0 v a).1 = 0 ∨ (rs_string_insert h s pos0 v a).1 = -1) ∧
    ((rs_string_insert h s pos0 v a).1 = -1 →
      rs_okb (rs_string_insert h s pos0 v a).2.1 (rs_string_insert h s pos0 v a).2.2 = true ∧
      rs_string_content (rs_string_insert h s pos0 v a).2.1 (rs_string_insert h s pos0 v a).2.2
        = rs_string_content h s ∧
      (rs_string_insert h s pos0 v a).2.2.len = s.len ∧
      (rs_string_insert h s pos0 v a).2.2.p.isSome = s.p.isSome) ∧
    ((rs_string_insert h s pos0 v a).1 = 0 →
      rs_okb (rs_string_insert h s pos0 v a).2.1 (rs_string_insert h s pos0 v a).2.2 = true ∧
      rs_string_content (rs_string_insert h s pos0 v a).2.1 (rs_string_insert h s pos0 v a).2.2
        = (rs_string_content h s).take (min pos0 s.len) ++ v
          ++ (rs_string_content h s).drop (min pos0 s.len) ∧
      (rs_string_insert h s pos0 v a).2.2.len = s.len + v.length ∧
      (s.p.isSome = true → (rs_string_insert h s pos0 v a).2.2.p.isSome = true) ∧
      rs_unique (rs_string_insert h s pos0 v a).2.1 (rs_string_insert h s pos0 v a).2.2
        = true) := by
  have hposeq : (if pos0 > s.len then s.len else pos0) = min pos0 s.len := by
    split <;> omega
  obtain ⟨Rno, Ror, Rfail, Rok⟩ := rs_string_reserve_ex_spec h s (s.len + v.length) a hk
  set R := rs_string_reserve_ex h s (s.len + v.length) a with hR
  rcases Ror with hr0 | hrm1
  · obtain ⟨okbR, contR, lenR, isSomeR, needR, capR, uniqOrR⟩ := Rok hr0
    rcases rs__ensure_unique_fail_eq R.2.1 R.2.2 a with heu0 | heuF
    · obtain ⟨okbE, contE, lenE, capE, isSomeE, uniqE⟩ :=
        rs__ensure_unique_ok R.2.1 R.2.2 a okbR heu0
      set ES := rs__ensure_unique R.2.1 R.2.2 a with hES
      obtain ⟨hwfE, hlenE, hbufaE, hbufbE, hinlE, hblkE⟩ := (rs_okb_iff _ _).mp okbE
      set pos := min pos0 s.len with hpos
      set b := rs__buf ES.2.1 ES.2.2 with hb
      set moved := (b.drop pos).take (ES.2.2.len - pos) with hmoved
      set ST1 := rs__store ES.2.1 ES.2.2 (pos + v.length) moved with hST1
      obtain ⟨b1eq, l1, p1, c1, u1, w1, k1⟩ :=
        rs__store_parts ES.2.1 ES.2.2 (pos + v.length) moved hwfE hblkE
      rw [← hST1] at b1eq l1 p1 c1 u1 w1 k1
      set ST2 := rs__store ST1.1 ST1.2 pos v with hST2
      obtain ⟨b2eq, l2, p2, c2, u2, w2, k2⟩ := rs__store_parts ST1.1 ST1.2 pos v w1 k1
      rw [← hST2] at b2eq l2 p2 c2 u2 w2 k2
      set s3 : rs_string := { ST2.2 with len := ST2.2.len + v.length } with hs3
      have k2' : ∀ id, s3.p = some id →
          ∃ blk, ST2.1.lookup id = some blk ∧ blk.cap = s3.cap ∧ 1 ≤ blk.rc := k2
      set ST3 := rs__store ST2.1 s3 s3.len [0] with hST3
      obtain ⟨b3eq, l3, p3, c3, u3, w3, k3⟩ := rs__store_parts ST2.1 s3 s3.len [0] w2 k2'
      rw [← hST3] at b3eq l3 p3 c3 u3 w3 k3
      have hres : rs_string_insert h s pos0 v a = (0, ST3.1, ST3.2) := by
        simp only [rs_string_insert, hposeq]
        rw [← hR, if_neg (by rw [hr0]; decide)]
        rw [← hES, if_neg (by rw [heu0]; decide)]
      have hlen3 : ES.2.2.len = s.len := by rw [lenE, lenR]
      have hposle : pos ≤ s.len := by omega
      have hcapES : s.len + v.length ≤ rs_string_cap ES.2.2 := by
        rw [capE]
        exact needR
      have hbL : s.len + 1 ≤ b.length := by
        rw [← hlen3]
        exact hbufaE
      have hbcap : b.length ≤ rs_string_cap ES.2.2 + 1 := hbufbE
      have hbuf3 : rs__buf ST3.1 ST3.2
          = memWrite (memWrite (memWrite b (pos + v.length) moved) pos v)
            (s.len + v.length) [0] := by
        rw [b3eq]
        have hsb : rs__buf ST2.1 s3 = rs__buf ST2.1 ST2.2 := rfl
        rw [hsb, b2eq, b1eq]
        have hl3 : s3.len = s.len + v.length := by
          rw [hs3]
          dsimp only
          rw [l2, l1, hlen3]
        rw [hl3]
      have hlenfin : ST3.2.len = s.len + v.length := by
        rw [l3, hs3]
        dsimp only
        rw [l2, l1, hlen3]
      have hcapfin : rs_string_cap ST3.2 = rs_string_cap ES.2.2 := by
        unfold rs_string_cap rs_string_is_heap
        rw [p3, c3, hs3]
        dsimp only
        rw [p2, c2, p1, c1]
      have hpfin : ST3.2.p = ES.2.2.p := by
        rw [p3, hs3]
        dsimp only
        rw [p2, p1]
      rw [hres]
      dsimp only
      refine ⟨Or.inl rfl, by intro hcon; simp at hcon, ?_⟩
      intro _
      have hcontent : rs_string_content ST3.1 ST3.2
          = (rs_string_content h s).take pos ++ v ++ (rs_string_content h s).drop pos := by
        unfold rs_string_content
        rw [hbuf3, hlenfin, hmoved, hlen3]
        rw [rs__insert_content_calc b v s.len pos hbL hposle]
        have hCE : List.take s.len b = List.take s.len (rs__buf h s) := by
          have hc := contE
          rw [contR] at hc
          unfold rs_string_content at hc
          rw [hlen3] at hc
          exact hc
        rw [hCE, ← List.append_assoc]
      refine ⟨?_, hcontent, hlenfin, ?_, ?_⟩
      · rw [rs_okb_iff]
        refine ⟨w3, ?_, ?_, ?_, ?_, k3⟩
        · rw [hlenfin, hcapfin]
          exact hcapES
        · rw [hbuf3, hlenfin, memWrite_length]
          simp only [List.length_cons, List.length_nil]
          omega
        · rw [hbuf3, hcapfin, memWrite_length, memWrite_length, memWrite_length]
          simp only [List.length_cons, List.length_nil]
          have hmlen : moved.length = s.len - pos := by
            rw [hmoved, List.length_take, List.length_drop, hlen3]
            omega
          rw [hmlen]
          omega
        · intro hcon
          rw [hpfin] at hcon
          have hssoc := hinlE hcon
          rw [c3]
          have hc3 : s3.cap = ES.2.2.cap := by
            rw [hs3]
            dsimp only
            rw [c2, c1]
          rw [hc3]
          exact hssoc
      · intro hsome
        rw [hpfin, isSomeE]
        exact isSomeR hsome
      · have hu : rs_unique ST2.1 s3 = rs_unique ST2.1 ST2.2 := rfl
        rw [u3, hu, u2, u1]
        exact uniqE
    · rcases uniqOrR with hRid | hRuniq
      · have hEeq : rs__ensure_unique R.2.1 R.2.2 a = rs__ensure_unique h s a := by
          rw [hRid]
        have hres : rs_string_insert h s pos0 v a = (-1, h, s) := by
          simp only [rs_string_insert, hposeq]
          rw [← hR, if_neg (by rw [hr0]; decide)]
          rw [heuF, hRid]
          simp
        rw [hres]
        exact ⟨Or.inr rfl, fun _ => ⟨hk, rfl, rfl, rfl⟩, by intro hcon; simp at hcon⟩
      · exfalso
        have := rs__ensure_unique_of_unique R.2.1 R.2.2 a hRuniq
        rw [this] at heuF
        have : (0 : Int) = -1 := congrArg Prod.fst heuF
        simp at this
  · have hres : rs_string_insert h s pos0 v a = (-1, R.2.1, R.2.2) := by
      simp only [rs_string_insert, hposeq]
      rw [← hR, if_pos (by rw [hrm1]; decide)]
    obtain ⟨okbF, contF, lenF, capF, isSomeF⟩ := Rfail hrm1
    rw [hres]
    exact ⟨Or.inr rfl, fun _ => ⟨okbF, contF, lenF, isSomeF⟩, by intro hcon; simp at hcon⟩

/-! ### assign / append -/

theorem rs__assign_content_calc (b v : List Byte) :
    (memWrite b 0 (v ++ [0])).take v.length = v := by
  rw [memWrite_of_le _ _ _ (Nat.zero_le _)]
  simp only [List.take_zero, List.nil_append, List.append_assoc]
  rw [List.take_append_eq_append_take]
  rw [@List.take_of_length_le _ v.length v (Nat.le_refl _), Nat.sub_self, List.take_zero,
    List.append_nil]

theorem rs__append_content_calc (b v : List Byte) (L : Nat) (hL : L ≤ b.length) :
    (memWrite b L (v ++ [0])).take (L + v.length) = b.take L ++ v := by
  rw [memWrite_take_split _ _ _ _ hL (by omega)]
  congr 1
  rw [List.append_assoc, List.take_append_eq_append_take]
  have hidx : L + v.length - L = v.length := by omega
  rw [hidx, @List.take_of_length_le _ v.length v (Nat.le_refl _), Nat.sub_self,
    List.take_zero, List.append_nil]

theorem rs_string_assign_spec (h : Heap) (s : rs_string) (v : List Byte) (a : Alloc)
    (hk : rs_okb h s = true) :
    ((rs_string_assign h s v a).1 = 0 ∨ (rs_string_assign h s v a).1 = -1) ∧
    ((rs_string_assign h s v a).1 = -1 →
      rs_okb (rs_string_assign h s v a).2.1 (rs_string_assign h s v a).2.2 = true ∧
      rs_string_content (rs_string_assign h s v a).2.1 (rs_string_assign h s v a).2.2
        = rs_string_content h s ∧
      (rs_string_assign h s v a).2.2.len = s.len ∧
      (rs_string_assign h s v a).2.2.p.isSome = s.p.isSome) ∧
    ((rs_string_assign h s v a).1 = 0 →
      rs_okb (rs_string_assign h s v a).2.1 (rs_string_assign h s v a).2.2 = true ∧
      rs_string_content (rs_string_assign h s v a).2.1 (rs_string_assign h s v a).2.2 = v ∧
      (rs_string_assign h s v a).2.2.len = v.length ∧
      (s.p.isSome = true → (rs_string_assign h s v a).2.2.p.isSome = true) ∧
      rs_unique (rs_string_assign h s v a).2.1 (rs_string_assign h s v a).2.2 = true) := by
  obtain ⟨Rno, Ror, Rfail, Rok⟩ := rs_string_reserve_ex_spec h s v.length a hk
  set R := rs_string_reserve_ex h s v.length a with hR
  rcases Ror with hr0 | hrm1
  · obtain ⟨okbR, contR, lenR, isSomeR, needR, capR, uniqOrR⟩ := Rok hr0
    rcases rs__ensure_unique_fail_eq R.2.1 R.2.2 a with heu0 | heuF
    · obtain ⟨okbE, contE, lenE, capE, isSomeE, uniqE⟩ :=
        rs__ensure_unique_ok R.2.1 R.2.2 a okbR heu0
      set ES := rs__ensure_unique R.2.1 R.2.2 a with hES
      obtain ⟨hwfE, hlenE, hbufaE, hbufbE, hinlE, hblkE⟩ := (rs_okb_iff _ _).mp okbE
      set b := rs__buf ES.2.1 ES.2.2 with hb
      set ST := rs__store ES.2.1 ES.2.2 0 (v ++ [0]) with hST
      obtain ⟨b1eq, l1, p1, c1, u1, w1, k1⟩ :=
        rs__store_parts ES.2.1 ES.2.2 0 (v ++ [0]) hwfE hblkE
      rw [← hST] at b1eq l1 p1 c1 u1 w1 k1
      have hres : rs_string_assign h s v a =
          (0, ST.1, { ST.2 with len := v.length }) := by
        simp only [rs_string_assign]
        rw [← hR, if_neg (by rw [hr0]; decide)]
        rw [← hES, if_neg (by rw [heu0]; decide)]
      have hlen3 : ES.2.2.len = s.len := by rw [lenE, lenR]
      have hcapES : v.length ≤ rs_string_cap ES.2.2 := by
        rw [capE]
        exact needR
      have hbufmod : rs__buf ST.1 { ST.2 with len := v.length } = rs__buf ST.1 ST.2 := rfl
      have hcapmod : rs_string_cap { ST.2 with len := v.length } = rs_string_cap ST.2 := rfl
      have hcapfin : rs_string_cap ST.2 = rs_string_cap ES.2.2 := by
        unfold rs_string_cap rs_string_is_heap
        rw [p1, c1]
      rw [hres]
      dsimp only
      refine ⟨Or.inl rfl, by intro hcon; simp at hcon, ?_⟩
      intro _
      refine ⟨?_, ?_, rfl, ?_, ?_⟩
      · rw [rs_okb_iff]
        dsimp only
        rw [hbufmod, hcapmod, b1eq, hcapfin]
        refine ⟨w1, hcapES, ?_, ?_, ?_, fun id hid => k1 id hid⟩
        · rw [memWrite_length]
          simp only [List.length_append, List.length_cons, List.length_nil]
          omega
        · rw [memWrite_length, ← hb]
          simp only [List.length_append, List.length_cons, List.length_nil]
          omega
        · intro hcon
          rw [p1] at hcon
          rw [c1]
          exact hinlE hcon
      · show (rs__buf _ _).take _ = _
        rw [hbufmod, b1eq, ← hb]
        dsimp only
        exact rs__assign_content_calc b v
      · intro hsome
        show ST.2.p.isSome = true
        rw [p1, isSomeE]
        exact isSomeR hsome
      · have hu : rs_unique ST.1 { ST.2 with len := v.length } = rs_unique ST.1 ST.2 := rfl
        rw [hu, u1]
        exact uniqE
    · rcases uniqOrR with hRid | hRuniq
      · have hres : rs_string_assign h s v a = (-1, h, s) := by
          simp only [rs_string_assign]
          rw [← hR, if_neg (by rw [hr0]; decide)]
          rw [heuF, hRid]
          simp
        rw [hres]
        exact ⟨Or.inr rfl, fun _ => ⟨hk, rfl, rfl, rfl⟩, by intro hcon; simp at hcon⟩
      · exfalso
        have := rs__ensure_unique_of_unique R.2.1 R.2.2 a hRuniq
        rw [this] at heuF
        have h2 : (0 : Int) = -1 := congrArg Prod.fst heuF
        simp at h2
  · have hres : rs_string_assign h s v a = (-1, R.2.1, R.2.2) := by
      simp only [rs_string_assign]
      rw [← hR, if_pos (by rw [hrm1]; decide)]
    obtain ⟨okbF, contF, lenF, capF, isSomeF⟩ := Rfail hrm1
    rw [hres]
    exact ⟨Or.inr rfl, fun _ => ⟨okbF, contF, lenF, isSomeF⟩, by intro hcon; simp at hcon⟩

theorem rs_string_append_spec (h : Heap) (s : rs_string) (v : List Byte) (a : Alloc)
    (hk : rs_okb h s = true) :
    ((rs_string_append h s v a).1 = 0 ∨ (rs_string_append h s v a).1 = -1) ∧
    ((rs_string_append h s v a).1 = -1 →
      rs_okb (rs_string_append h s v a).2.1 (rs_string_append h s v a).2.2 = true ∧
      rs_string_content (rs_string_append h s v a).2.1 (rs_string_append h s v a).2.2
        = rs_string_content h s ∧
      (rs_string_append h s v a).2.2.len = s.len ∧
      (rs_string_append h s v a).2.2.p.isSome = s.p.isSome) ∧
    ((rs_string_append h s v a).1 = 0 →
      rs_okb (rs_string_append h s v a).2.1 (rs_string_append h s v a).2.2 = true ∧
      rs_string_content (rs_string_append h s v a).2.1 (rs_string_append h s v a).2.2
        = rs_string_content h s ++ v ∧
      (rs_string_append h s v a).2.2.len = s.len + v.length ∧
      (s.p.isSome = true → (rs_string_append h s v a).2.2.p.isSome = true) ∧
      rs_unique (rs_string_append h s v a).2.1 (rs_string_append h s v a).2.2 = true) := by
  obtain ⟨Rno, Ror, Rfail, Rok⟩ := rs_string_reserve_ex_spec h s (s.len + v.length) a hk
  set R := rs_string_reserve_ex h s (s.len + v.length) a with hR
  rcases Ror with hr0 | hrm1
  · obtain ⟨okbR, contR, lenR, isSomeR, needR, capR, uniqOrR⟩ := Rok hr0
    rcases rs__ensure_unique_fail_eq R.2.1 R.2.2 a with heu0 | heuF
    · obtain ⟨okbE, contE, lenE, capE, isSomeE, uniqE⟩ :=
        rs__ensure_unique_ok R.2.1 R.2.2 a okbR heu0
      set ES := rs__ensure_unique R.2.1 R.2.2 a with hES
      obtain ⟨hwfE, hlenE, hbufaE, hbufbE, hinlE, hblkE⟩ := (rs_okb_iff _ _).mp okbE
      set b := rs__buf ES.2.1 ES.2.2 with hb
      set ST := rs__store ES.2.1 ES.2.2 ES.2.2.len (v ++ [0]) with hST
      obtain ⟨b1eq, l1, p1, c1, u1, w1, k1⟩ :=
        rs__store_parts ES.2.1 ES.2.2 ES.2.2.len (v ++ [0]) hwfE hblkE
      rw [← hST] at b1eq l1 p1 c1 u1 w1 k1
      have hres : rs_string_append h s v a =
          (0, ST.1, { ST.2 with len := ES.2.2.len + v.length }) := by
        simp only [rs_string_append]
        rw [← hR, if_neg (by rw [hr0]; decide)]
        rw [← hES, if_neg (by rw [heu0]; decide)]
      have hlen3 : ES.2.2.len = s.len := by rw [lenE, lenR]
      have hcapES : s.len + v.length ≤ rs_string_cap ES.2.2 := by
        rw [capE]
        exact needR
      have hbufmod : rs__buf ST.1 { ST.2 with len := ES.2.2.len + v.length }
          = rs__buf ST.1 ST.2 := rfl
      have hcapmod : rs_string_cap { ST.2 with len := ES.2.2.len + v.length }
          = rs_string_cap ST.2 := rfl
      have hcapfin : rs_string_cap ST.2 = rs_string_cap ES.2.2 := by
        unfold rs_string_cap rs_string_is_heap
        rw [p1, c1]
      rw [hres]
      dsimp only
      refine ⟨Or.inl rfl, by intro hcon; simp at hcon, ?_⟩
      intro _
      refine ⟨?_, ?_, by rw [hlen3], ?_, ?_⟩
      · rw [rs_okb_iff]
        dsimp only
        rw [hbufmod, hcapmod, b1eq, hcapfin, hlen3]
        refine ⟨w1, hcapES, ?_, ?_, ?_, fun id hid => k1 id hid⟩
        · rw [memWrite_length]
          simp only [List.length_append, List.length_cons, List.length_nil]
          omega
        · rw [memWrite_length, ← hb]
          simp only [List.length_append, List.length_cons, List.length_nil]
          omega
        · intro hcon
          rw [p1] at hcon
          rw [c1]
          exact hinlE hcon
      · show (rs__buf _ _).take _ = _
        rw [hbufmod, b1eq, ← hb]
        dsimp only
        rw [hlen3]
        have hbL : s.len ≤ b.length := by
          rw [← hlen3]
          omega
        rw [rs__append_content_calc b v s.len hbL]
        have hCE : List.take s.len b = rs_string_content h s := by
          have hc := contE
          rw [contR] at hc
          unfold rs_string_content at hc
          rw [hlen3] at hc
          exact hc
        rw [hCE]
      · intro hsome
        show ST.2.p.isSome = true
        rw [p1, isSomeE]
        exact isSomeR hsome
      · have hu : rs_unique ST.1 { ST.2 with len := ES.2.2.len + v.length }
            = rs_unique ST.1 ST.2 := rfl
        rw [hu, u1]
        exact uniqE
    · rcases uniqOrR with hRid | hRuniq
      · have hres : rs_string_append h s v a = (-1, h, s) := by
          simp only [rs_string_append]
          rw [← hR, if_neg (by rw [hr0]; decide)]
          rw [heuF, hRid]
          simp
        rw [hres]
        exact ⟨Or.inr rfl, fun _ => ⟨hk, rfl, rfl, rfl⟩, by intro hcon; simp at hcon⟩
      · exfalso
        have := rs__ensure_unique_of_unique R.2.1 R.2.2 a hRuniq
        rw [this] at heuF
        have h2 : (0 : Int) = -1 := congrArg Prod.fst heuF
        simp at h2
  · have hres : rs_string_append h s v a = (-1, R.2.1, R.2.2) := by
      simp only [rs_string_append]
      rw [← hR, if_pos (by rw [hrm1]; decide)]
    obtain ⟨okbF, contF, lenF, capF, isSomeF⟩ := Rfail hrm1
    rw [hres]
    exact ⟨Or.inr rfl, fun _ => ⟨okbF, contF, lenF, isSomeF⟩, by intro hcon; simp at hcon⟩

/-! ### find / scan -/

theorem rs__scan_from_some {buf what : List Byte} {len : Nat} :
    ∀ {fuel i pos : Nat}, rs__scan_from buf what len i fuel = some pos →
      i ≤ pos ∧ pos + what.length ≤ len ∧ (buf.drop pos).take what.length = what := by
  intro fuel
  induction fuel with
  | zero =>
    intro i pos hcon
    simp [rs__scan_from] at hcon
  | succ fuel ih =>
    intro i pos hscan
    rw [rs__scan_from] at hscan
    split at hscan
    · split at hscan
      · rw [Option.some.injEq] at hscan
        subst hscan
        refine ⟨Nat.le_refl _, by assumption, by assumption⟩
      · obtain ⟨h1, h2, h3⟩ := ih hscan
        exact ⟨by omega, h2, h3⟩
    · simp at hscan

theorem rs_string_find_some {h : Heap} {s : rs_string} {what : List Byte} {start pos : Nat}
    (hf : rs_string_find h s what start = some pos) :
    start ≤ pos ∧ pos + what.length ≤ s.len := by
  unfold rs_string_find at hf
  split at hf
  · split at hf
    · rw [Option.some.injEq] at hf
      subst hf
      constructor
      · exact Nat.le_refl _
      · omega
    · simp at hf
  · unfold rs__scan at hf
    obtain ⟨h1, h2, _⟩ := rs__scan_from_some hf
    exact ⟨h1, h2⟩

/-! ### always-succeeding allocation -/

theorem rs__ensure_unique_total (h : Heap) (s : rs_string) (a : Alloc)
    (ha : ∀ n, a n = true) : (rs__ensure_unique h s a).1 = 0 := by
  cases hp : s.p with
  | none => simp [rs__ensure_unique, hp]
  | some id =>
    cases hl : h.lookup id with
    | none => simp [rs__ensure_unique, hp, hl]
    | some blk =>
      by_cases h1 : blk.rc = 1
      · simp [rs__ensure_unique, hp, hl, h1]
      · simp [rs__ensure_unique, hp, hl, h1, ha (rs__hdr_size + blk.cap + 1)]

theorem rs_string_reserve_ex_total (h : Heap) (s : rs_string) (need : Nat) (a : Alloc)
    (hk : rs_okb h s = true) (ha : ∀ n, a n = true) :
    (rs_string_reserve_ex h s need a).1 = 0 := by
  by_cases hle : need ≤ rs_string_cap s
  · simp [rs_string_reserve_ex, hle]
  · have heu0 := rs__ensure_unique_total h s a ha
    obtain ⟨okb1, _, _, _, _, _⟩ := rs__ensure_unique_ok h s a hk heu0
    obtain ⟨_, _, _, _, _, hblk1⟩ := (rs_okb_iff _ _).mp okb1
    simp only [rs_string_reserve_ex, if_neg hle]
    rw [if_neg (by simp [heu0])]
    cases hsp : (rs__ensure_unique h s a).2.2.p with
    | some id =>
      obtain ⟨blk, hlook, _, _⟩ := hblk1 id hsp
      simp [hlook, ha]
    | none =>
      simp [ha]

theorem rs_string_erase_total (h : Heap) (s : rs_string) (pos n0 : Nat) (a : Alloc)
    (ha : ∀ n, a n = true) : (rs_string_erase h s pos n0 a).1 = 0 := by
  by_cases hgt : pos > s.len
  · simp [rs_string_erase, hgt]
  · have heu0 := rs__ensure_unique_total h s a ha
    simp only [rs_string_erase, if_neg hgt]
    rw [if_neg (by simp [heu0])]

theorem rs_string_insert_total (h : Heap) (s : rs_string) (pos0 : Nat) (v : List Byte)
    (a : Alloc) (hk : rs_okb h s = true) (ha : ∀ n, a n = true) :
    (rs_string_insert h s pos0 v a).1 = 0 := by
  have hr0 := rs_string_reserve_ex_total h s (s.len + v.length) a hk ha
  have he0 := rs__ensure_unique_total (rs_string_reserve_ex h s (s.len + v.length) a).2.1
    (rs_string_reserve_ex h s (s.len + v.length) a).2.2 a ha
  simp only [rs_string_insert]
  rw [if_neg (by simp [hr0])]
  rw [if_neg (by simp [he0])]

/-! ### trim loop lemmas -/

theorem rs__trim_right_end_le (c : List Byte) (e : Nat) : rs__trim_right_end c e ≤ e := by
  induction e with
  | zero => simp [rs__trim_right_end]
  | succ e ih =>
    rw [rs__trim_right_end]
    split
    · omega
    · omega

theorem rs__trim_right_end_stop (c : List Byte) (e : Nat)
    (hpos : 0 < rs__trim_right_end c e) :
    ¬ c.getD (rs__trim_right_end c e - 1) 0 ≤ 0x20 := by
  induction e with
  | zero => simp [rs__trim_right_end] at hpos
  | succ e ih =>
    by_cases hce : c.getD e 0 ≤ 0x20
    · rw [rs__trim_right_end, if_pos hce] at hpos ⊢
      exact ih hpos
    · rw [rs__trim_right_end, if_neg hce]
      simpa using hce

theorem rs__trim_right_end_ws (c : List Byte) (e : Nat) :
    ∀ j, rs__trim_right_end c e ≤ j → j < e → c.getD j 0 ≤ 0x20 := by
  induction e with
  | zero =>
    intro j h1 h2
    omega
  | succ e ih =>
    intro j h1 h2
    by_cases hce : c.getD e 0 ≤ 0x20
    · rw [rs__trim_right_end, if_pos hce] at h1
      by_cases hj : j = e
      · subst hj
        exact hce
      · exact ih j h1 (by omega)
    · rw [rs__trim_right_end, if_neg hce] at h1
      omega

theorem rs__trim_right_end_noop (c : List Byte) (e : Nat)
    (hnw : 0 < e → ¬ c.getD (e - 1) 0 ≤ 0x20) : rs__trim_right_end c e = e := by
  cases e with
  | zero => simp [rs__trim_right_end]
  | succ e =>
    rw [rs__trim_right_end, if_neg (by simpa using hnw (by omega))]

theorem rs__trim_right_end_append (c d : List Byte) (e : Nat) (he : e ≤ c.length) :
    rs__trim_right_end (c ++ d) e = rs__trim_right_end c e := by
  induction e with
  | zero => simp [rs__trim_right_end]
  | succ e ih =>
    have hget : (c ++ d).getD e 0 = c.getD e 0 := by
      rw [List.getD_eq_getElem?_getD, List.getD_eq_getElem?_getD, List.getElem?_append]
      rw [if_pos (by omega)]
    rw [rs__trim_right_end, rs__trim_right_end, hget]
    split
    · exact ih (by omega)
    · rfl

/-- The take computed by the trim_right loop equals removing the maximal trailing
run of bytes `≤ 0x20`. -/
theorem rs__trim_right_end_eq_rev (c : List Byte) :
    c.take (rs__trim_right_end c c.length)
      = (c.reverse.dropWhile (fun b => b ≤ 0x20)).reverse := by
  induction c using List.reverseRecOn with
  | nil => simp [rs__trim_right_end]
  | append_singleton l x ih =>
    have hlen : (l ++ [x]).length = l.length + 1 := by
      simp
    have hget : (l ++ [x]).getD l.length 0 = x := by
      rw [List.getD_eq_getElem?_getD, List.getElem?_append_right (Nat.le_refl _)]
      simp
    rw [hlen, rs__trim_right_end, hget, List.reverse_append]
    by_cases hx : x ≤ 0x20
    · rw [if_pos (by simpa using hx)]
      rw [rs__trim_right_end_append l [x] l.length (Nat.le_refl _)]
      have hrev : ([x].reverse ++ l.reverse).dropWhile (fun b => b ≤ 0x20)
          = l.reverse.dropWhile (fun b => b ≤ 0x20) := by
        simp only [List.reverse_cons, List.reverse_nil, List.nil_append,
          List.singleton_append, List.dropWhile_cons]
        rw [if_pos (by simpa using hx)]
      rw [hrev, ← ih]
      rw [List.take_append_eq_append_take]
      have h1 : rs__trim_right_end l l.length - l.length = 0 := by
        have := rs__trim_right_end_le l l.length
        omega
      rw [h1, List.take_zero, List.append_nil]
    · rw [if_neg (by simpa using hx)]
      have hrev : ([x].reverse ++ l.reverse).dropWhile (fun b => b ≤ 0x20)
          = [x].reverse ++ l.reverse := by
        simp only [List.reverse_cons, List.reverse_nil, List.nil_append,
          List.singleton_append, List.dropWhile_cons]
        rw [if_neg (by simpa using hx)]
      rw [hrev]
      simp

/-! ### takeWhile / dropWhile helpers -/

theorem rs__takeWhile_length_le (p : Byte → Bool) (l : List Byte) :
    (l.takeWhile p).length ≤ l.length := by
  have := congrArg List.length (List.takeWhile_append_dropWhile p l)
  rw [List.length_append] at this
  omega

theorem rs__drop_takeWhile (p : Byte → Bool) (l : List Byte) :
    l.drop (l.takeWhile p).length = l.dropWhile p := by
  induction l with
  | nil => simp
  | cons x xs ih =>
    by_cases hx : p x = true
    · rw [List.takeWhile_cons, if_pos hx, List.dropWhile_cons, if_pos hx]
      simpa using ih
    · rw [List.takeWhile_cons, if_neg hx, List.dropWhile_cons, if_neg hx]
      simp

theorem rs__takeWhile_dropWhile (p : Byte → Bool) (l : List Byte) :
    (l.dropWhile p).takeWhile p = [] := by
  induction l with
  | nil => simp
  | cons x xs ih =>
    by_cases hx : p x = true
    · rw [List.dropWhile_cons, if_pos hx]
      exact ih
    · rw [List.dropWhile_cons, if_neg hx, List.takeWhile_cons, if_neg hx]

theorem rs__dropWhile_eq_nil_or (p : Byte → Bool) (l : List Byte) :
    l.takeWhile p = [] → l.dropWhile p = l := by
  intro hn
  have := List.takeWhile_append_dropWhile p l
  rw [hn, List.nil_append] at this
  exact this

/-- The last element of `dropWhile p l` is the last element of `l` whenever the
result is nonempty. -/
theorem rs__dropWhile_last (p : Byte → Bool) (l : List Byte)
    (hl : l.dropWhile p ≠ []) :
    (l.dropWhile p).getD ((l.dropWhile p).length - 1) 0 = l.getD (l.length - 1) 0 := by
  induction l with
  | nil => simp at hl
  | cons x xs ih =>
    by_cases hx : p x = true
    · rw [List.dropWhile_cons, if_pos hx] at hl ⊢
      have hxs : xs ≠ [] := by
        intro hcon
        rw [hcon] at hl
        simp at hl
      have hxslen : 1 ≤ xs.length := by
        cases xs with
        | nil => simp at hxs
        | cons y ys => simp
      rw [ih hl]
      have hlen : (x :: xs).length - 1 = (xs.length - 1) + 1 := by
        simp only [List.length_cons]
        omega
      rw [hlen]
      rw [List.getD_eq_getElem?_getD, List.getD_eq_getElem?_getD]
      simp
    · rw [List.dropWhile_cons, if_neg hx]

theorem rs__dropWhile_length_le (p : Byte → Bool) (l : List Byte) :
    (l.dropWhile p).length ≤ l.length := by
  have := congrArg List.length (List.takeWhile_append_dropWhile p l)
  rw [List.length_append] at this
  omega

theorem rs__dropWhile_idem (p : Byte → Bool) (l : List Byte) :
    (l.dropWhile p).dropWhile p = l.dropWhile p :=
  rs__dropWhile_eq_nil_or p (l.dropWhile p) (rs__takeWhile_dropWhile p l)

/-- A list whose `dropWhile` is itself keeps that property on the `dropWhile` of
any list whose reverse it extends; used to move the no-leading-run property of
`y.reverse` down to `(y.dropWhile p).reverse`. -/
theorem rs__dropWhile_self_of_front (p : Byte → Bool) (d r : List Byte)
    (hy : (d ++ r).dropWhile p = d ++ r) : d.dropWhile p = d := by
  cases hd : d with
  | nil => rfl
  | cons z zs =>
    rw [hd] at hy
    rw [List.cons_append, List.dropWhile_cons] at hy
    by_cases hz : p z = true
    · rw [if_pos hz] at hy
      have hlen := congrArg List.length hy
      have hle := rs__dropWhile_length_le p (zs ++ r)
      rw [List.length_cons] at hlen
      omega
    · rw [List.dropWhile_cons, if_neg hz]

theorem rs_string_content_length (h : Heap) (s : rs_string) (hk : rs_okb h s = true) :
    (rs_string_content h s).length = s.len := by
  obtain ⟨_, _, hb, _, _, _⟩ := (rs_okb_iff h s).mp hk
  unfold rs_string_content
  rw [List.length_take]
  omega

/-! ### trim operation specifications -/

theorem rs_string_trim_left_spec (h : Heap) (s : rs_string) (a : Alloc)
    (hk : rs_okb h s = true) (ha : ∀ n, a n = true) :
    (rs_string_trim_left h s a).1 = 0 ∧
    rs_okb (rs_string_trim_left h s a).2.1 (rs_string_trim_left h s a).2.2 = true ∧
    rs_string_content (rs_string_trim_left h s a).2.1 (rs_string_trim_left h s a).2.2
      = (rs_string_content h s).dropWhile (fun b => b ≤ 0x20) ∧
    rs_string_cap (rs_string_trim_left h s a).2.2 = rs_string_cap s ∧
    (s.p.isSome = true → (rs_string_trim_left h s a).2.2.p.isSome = true) := by
  have hclen := rs_string_content_length h s hk
  set c := rs_string_content h s with hc
  set i := (c.takeWhile (fun b => decide (b ≤ 0x20))).length with hi
  have hile : i ≤ s.len := by
    rw [hi, ← hclen]
    exact rs__takeWhile_length_le _ c
  by_cases hz : i = 0
  · have hres : rs_string_trim_left h s a = (0, h, s) := by
      simp only [rs_string_trim_left, ← hc, ← hi, hz, if_pos]
    rw [hres]
    have htw : c.takeWhile (fun b => decide (b ≤ 0x20)) = [] := by
      rw [← List.length_eq_zero]
      rw [← hi]
      exact hz
    refine ⟨rfl, hk, ?_, rfl, fun hs => hs⟩
    rw [← hc, rs__dropWhile_eq_nil_or _ c htw]
  · have hres : rs_string_trim_left h s a = rs_string_erase h s 0 i a := by
      simp only [rs_string_trim_left, ← hc, ← hi, hz, if_neg, ite_false]
    have h0e := rs_string_erase_total h s 0 i a ha
    obtain ⟨_, hok⟩ := rs_string_erase_spec h s 0 i a hk (Nat.zero_le _)
    obtain ⟨okbE, contE, lenE, capE, isSomeE, _⟩ := hok h0e
    rw [hres]
    have hmin : min i (s.len - 0) = i := by omega
    refine ⟨h0e, okbE, ?_, capE, fun hs => by rw [isSomeE]; exact hs⟩
    rw [contE, ← hc, hmin]
    rw [List.take_zero, List.nil_append, Nat.zero_add, hi]
    exact rs__drop_takeWhile _ c

theorem rs_string_trim_right_spec (h : Heap) (s : rs_string) (a : Alloc)
    (hk : rs_okb h s = true) (ha : ∀ n, a n = true) :
    (rs_string_trim_right h s a).1 = 0 ∧
    rs_okb (rs_string_trim_right h s a).2.1 (rs_string_trim_right h s a).2.2 = true ∧
    rs_string_content (rs_string_trim_right h s a).2.1 (rs_string_trim_right h s a).2.2
      = ((rs_string_content h s).reverse.dropWhile (fun b => b ≤ 0x20)).reverse ∧
    rs_string_cap (rs_string_trim_right h s a).2.2 = rs_string_cap s ∧
    (s.p.isSome = true → (rs_string_trim_right h s a).2.2.p.isSome = true) := by
  have hclen := rs_string_content_length h s hk
  set c := rs_string_content h s with hc
  have hrev := rs__trim_right_end_eq_rev c
  rw [hclen] at hrev
  by_cases h0l : s.len = 0
  · have hres : rs_string_trim_right h s a = (0, h, s) := by
      simp only [rs_string_trim_right, h0l, if_pos]
    rw [hres]
    have hcnil : c = [] := by
      rw [← List.length_eq_zero, hclen]
      exact h0l
    refine ⟨rfl, hk, ?_, rfl, fun hs => hs⟩
    rw [← hc, hcnil]
    simp
  · have hle := rs__trim_right_end_le c s.len
    set size := rs__trim_right_end c s.len with hsize
    by_cases heq : size = s.len
    · have hres : rs_string_trim_right h s a = (0, h, s) := by
        simp only [rs_string_trim_right, h0l, ← hc, ← hsize, heq, if_pos, ite_false,
          if_neg, ite_self]
      rw [hres]
      refine ⟨rfl, hk, ?_, rfl, fun hs => hs⟩
      rw [← hc, ← hrev, heq, ← hclen, List.take_length]
    · have hres : rs_string_trim_right h s a = rs_string_erase h s size (s.len - size) a := by
        simp only [rs_string_trim_right, ← hc, ← hsize]
        rw [if_neg h0l, if_neg heq]
      have h0e := rs_string_erase_total h s size (s.len - size) a ha
      obtain ⟨_, hok⟩ := rs_string_erase_spec h s size (s.len - size) a hk hle
      obtain ⟨okbE, contE, lenE, capE, isSomeE, _⟩ := hok h0e
      rw [hres]
      have hmin : min (s.len - size) (s.len - size) = s.len - size := by omega
      refine ⟨h0e, okbE, ?_, capE, fun hs => by rw [isSomeE]; exact hs⟩
      rw [contE, ← hc, hmin]
      have hfull : size + (s.len - size) = s.len := by omega
      rw [hfull, ← hclen, List.drop_length, List.append_nil]
      exact hrev

/-! ### heap-representation preservation -/

theorem rs__ensure_unique_isSome (h : Heap) (s : rs_string) (a : Alloc) :
    (rs__ensure_unique h s a).2.2.p.isSome = s.p.isSome := by
  cases hp : s.p with
  | none => simp [rs__ensure_unique, hp]
  | some id =>
    cases hl : h.lookup id with
    | none => simp [rs__ensure_unique, hp, hl]
    | some blk =>
      by_cases h1 : blk.rc = 1
      · simp [rs__ensure_unique, hp, hl, h1]
      · by_cases h2 : a (rs__hdr_size + blk.cap + 1) = true
        · simp [rs__ensure_unique, hp, hl, h1, h2]
        · simp [rs__ensure_unique, hp, hl, h1, h2]

theorem rs__store_p (h : Heap) (s : rs_string) (pos : Nat) (bytes : List Byte) :
    (rs__store h s pos bytes).2.p = s.p := by
  cases hp : s.p with
  | none => simp [rs__store, hp]
  | some id =>
    cases hl : h.lookup id with
    | none => simp [rs__store, hp, hl]
    | some blk => simp [rs__store, hp, hl]

theorem rs_string_reserve_ex_isSome (h : Heap) (s : rs_string) (need : Nat) (a : Alloc)
    (hs : s.p.isSome = true) :
    (rs_string_reserve_ex h s need a).2.2.p.isSome = true := by
  by_cases hle : need ≤ rs_string_cap s
  · simp only [rs_string_reserve_ex, if_pos hle]
    exact hs
  · have heq := rs__ensure_unique_isSome h s a
    simp only [rs_string_reserve_ex, if_neg hle]
    by_cases hf : (rs__ensure_unique h s a).1 ≠ 0
    · rw [if_pos hf]
      dsimp only
      rw [heq]
      exact hs
    · rw [if_neg hf]
      cases hsp : (rs__ensure_unique h s a).2.2.p with
      | none =>
        rw [hsp] at heq
        rw [hs] at heq
        simp at heq
      | some id =>
        cases hl : ((rs__ensure_unique h s a).2.1).lookup id with
        | none => simp [hsp, hl]
        | some blk =>
          simp only [hsp, hl]
          split
          · split <;> simp [hsp]
          · split <;> simp [hsp]

theorem rs_string_assign_isSome (h : Heap) (s : rs_string) (v : List Byte) (a : Alloc)
    (hs : s.p.isSome = true) :
    (rs_string_assign h s v a).2.2.p.isSome = true := by
  have hrv := rs_string_reserve_ex_isSome h s v.length a hs
  have heu := rs__ensure_unique_isSome (rs_string_reserve_ex h s v.length a).2.1
    (rs_string_reserve_ex h s v.length a).2.2 a
  have hst := rs__store_p
    (rs__ensure_unique (rs_string_reserve_ex h s v.length a).2.1
      (rs_string_reserve_ex h s v.length a).2.2 a).2.1
    (rs__ensure_unique (rs_string_reserve_ex h s v.length a).2.1
      (rs_string_reserve_ex h s v.length a).2.2 a).2.2 0 (v ++ [0])
  simp only [rs_string_assign]
  split
  · exact hrv
  · split
    · dsimp only
      rw [heu]
      exact hrv
    · dsimp only
      rw [hst, heu]
      exact hrv

theorem rs_string_append_isSome (h : Heap) (s : rs_string) (v : List Byte) (a : Alloc)
    (hs : s.p.isSome = true) :
    (rs_string_append h s v a).2.2.p.isSome = true := by
  have hrv := rs_string_reserve_ex_isSome h s (s.len + v.length) a hs
  have heu := rs__ensure_unique_isSome (rs_string_reserve_ex h s (s.len + v.length) a).2.1
    (rs_string_reserve_ex h s (s.len + v.length) a).2.2 a
  have hst := rs__store_p
    (rs__ensure_unique (rs_string_reserve_ex h s (s.len + v.length) a).2.1
      (rs_string_reserve_ex h s (s.len + v.length) a).2.2 a).2.1
    (rs__ensure_unique (rs_string_reserve_ex h s (s.len + v.length) a).2.1
      (rs_string_reserve_ex h s (s.len + v.length) a).2.2 a).2.2
    (rs__ensure_unique (rs_string_reserve_ex h s (s.len + v.length) a).2.1
      (rs_string_reserve_ex h s (s.len + v.length) a).2.2 a).2.2.len (v ++ [0])
  simp only [rs_string_append]
  split
  · exact hrv
  · split
    · dsimp only
      rw [heu]
      exact hrv
    · dsimp only
      rw [hst, heu]
      exact hrv

theorem rs_string_insert_isSome (h : Heap) (s : rs_string) (pos0 : Nat) (v : List Byte)
    (a : Alloc) (hs : s.p.isSome = true) :
    (rs_string_insert h s pos0 v a).2.2.p.isSome = true := by
  have hrv := rs_string_reserve_ex_isSome h s (s.len + v.length) a hs
  have heu := rs__ensure_unique_isSome (rs_string_reserve_ex h s (s.len + v.length) a).2.1
    (rs_string_reserve_ex h s (s.len + v.length) a).2.2 a
  simp only [rs_string_insert]
  split
  · exact hrv
  · split
    · dsimp only
      rw [heu]
      exact hrv
    · dsimp only
      rw [rs__store_p]
      show (_ : rs_string).p.isSome = true
      rw [rs__store_p, rs__store_p, heu]
      exact hrv

theorem rs_string_erase_isSome (h : Heap) (s : rs_string) (pos n0 : Nat) (a : Alloc)
    (hs : s.p.isSome = true) :
    (rs_string_erase h s pos n0 a).2.2.p.isSome = true := by
  have heu := rs__ensure_unique_isSome h s a
  simp only [rs_string_erase]
  split
  · exact hs
  · split
    · dsimp only
      rw [heu]
      exact hs
    · dsimp only
      show (rs__store _ _ _ _).2.p.isSome = true
      rw [rs__store_p, heu]
      exact hs

theorem rs_string_trim_left_isSome (h : Heap) (s : rs_string) (a : Alloc)
    (hs : s.p.isSome = true) :
    (rs_string_trim_left h s a).2.2.p.isSome = true := by
  simp only [rs_string_trim_left]
  split
  · exact hs
  · exact rs_string_erase_isSome h s 0 _ a hs

theorem rs_string_trim_right_isSome (h : Heap) (s : rs_string) (a : Alloc)
    (hs : s.p.isSome = true) :
    (rs_string_trim_right h s a).2.2.p.isSome = true := by
  simp only [rs_string_trim_right]
  split
  · exact hs
  · split
    · exact hs
    · exact rs_string_erase_isSome h s _ _ a hs

theorem rs_string_trim_isSome (h : Heap) (s : rs_string) (a : Alloc)
    (hs : s.p.isSome = true) :
    (rs_string_trim h s a).2.2.p.isSome = true := by
  simp only [rs_string_trim]
  exact rs_string_trim_left_isSome _ _ a (rs_string_trim_right_isSome h s a hs)

theorem rs_string_replace_first_isSome (h : Heap) (s : rs_string) (fromv tov : List Byte)
    (a : Alloc) (hs : s.p.isSome = true) :
    (rs_string_replace_first h s fromv tov a).2.2.p.isSome = true := by
  simp only [rs_string_replace_first]
  split
  · exact hs
  · split
    · exact rs_string_insert_isSome _ _ _ tov a
        (rs_string_erase_isSome h s _ fromv.length a hs)
    · split
      · exact rs_string_reserve_ex_isSome h s _ a hs
      · exact rs_string_insert_isSome _ _ _ tov a
          (rs_string_erase_isSome _ _ _ fromv.length a
            (rs_string_reserve_ex_isSome h s _ a hs))

theorem rs__replace_all_step_isSome (h : Heap) (s : rs_string) (fromv tov : List Byte)
    (a : Alloc) (i : Nat) (nxt : Heap × rs_string × Nat)
    (hstep : rs__replace_all_step h s fromv tov a i = some nxt)
    (hs : s.p.isSome = true) : nxt.2.1.p.isSome = true := by
  unfold rs__replace_all_step at hstep
  split at hstep
  · exact absurd hstep (by simp)
  · rw [Option.some.injEq] at hstep
    subst hstep
    exact rs_string_insert_isSome _ _ _ tov a
      (rs_string_erase_isSome h s _ fromv.length a hs)

theorem rs__replace_all_loop_isSome (fromv tov : List Byte) (a : Alloc) :
    ∀ fuel (h : Heap) (s : rs_string) (i count : Nat) (r : Int × Heap × rs_string),
      rs__replace_all_loop fromv tov a fuel h s i count = some r →
      s.p.isSome = true → r.2.2.p.isSome = true := by
  intro fuel
  induction fuel with
  | zero =>
    intro h s i count r hr hs
    simp [rs__replace_all_loop] at hr
  | succ fuel ih =>
    intro h s i count r hr hs
    rw [rs__replace_all_loop] at hr
    cases hstep : rs__replace_all_step h s fromv tov a i with
    | none =>
      rw [hstep] at hr
      rw [Option.some.injEq] at hr
      subst hr
      exact hs
    | some nxt =>
      rw [hstep] at hr
      exact ih nxt.1 nxt.2.1 nxt.2.2 (count + 1) r hr
        (rs__replace_all_step_isSome h s fromv tov a i nxt hstep hs)

theorem rs_string_replace_all_isSome (h : Heap) (s : rs_string) (fromv tov : List Byte)
    (a : Alloc) (fuel : Nat) (hs : s.p.isSome = true) :
    (rs_string_replace_all h s fromv tov a fuel).all
      (fun r => rs_string_is_heap r.2.2) = true := by
  unfold rs_string_replace_all
  split
  · simp [rs_string_is_heap, hs]
  · cases hr : rs__replace_all_loop fromv tov a fuel h s 0 0 with
    | none => simp
    | some r =>
      simp only [Option.all_some]
      exact rs__replace_all_loop_isSome fromv tov a fuel h s 0 0 r hr hs

theorem rs_string_vprintf_isSome (h : Heap) (s : rs_string) (fmt_out : Option (List Byte))
    (a : Alloc) (hs : s.p.isSome = true) :
    (rs_string_vprintf h s fmt_out a).2.2.p.isSome = true := by
  cases fmt_out with
  | none => exact hs
  | some out =>
    have hrv := rs_string_reserve_ex_isSome h s out.length a hs
    have heu := rs__ensure_unique_isSome (rs_string_reserve_ex h s out.length a).2.1
      (rs_string_reserve_ex h s out.length a).2.2 a
    have hst := rs__store_p
      (rs__ensure_unique (rs_string_reserve_ex h s out.length a).2.1
        (rs_string_reserve_ex h s out.length a).2.2 a).2.1
      (rs__ensure_unique (rs_string_reserve_ex h s out.length a).2.1
        (rs_string_reserve_ex h s out.length a).2.2 a).2.2 0 (out ++ [0])
    simp only [rs_string_vprintf]
    split
    · exact hrv
    · split
      · dsimp only
        rw [heu]
        exact hrv
      · dsimp only
        rw [hst, heu]
        exact hrv

/-! ### scan minimality and replace_first return value -/

theorem rs__scan_from_min {buf what : List Byte} {len : Nat} :
    ∀ {fuel i pos : Nat}, rs__scan_from buf what len i fuel = some pos →
      ∀ j, i ≤ j → j < pos → (buf.drop j).take what.length ≠ what := by
  intro fuel
  induction fuel with
  | zero =>
    intro i pos hcon
    simp [rs__scan_from] at hcon
  | succ fuel ih =>
    intro i pos hscan j hij hjp
    rw [rs__scan_from] at hscan
    split at hscan
    · split at hscan
      · rw [Option.some.injEq] at hscan
        omega
      · by_cases hji : j = i
        · subst hji
          assumption
        · exact ih hscan j (by omega) hjp
    · simp at hscan

theorem rs_string_find_min {h : Heap} {s : rs_string} {what : List Byte} {start pos : Nat}
    (hf : rs_string_find h s what start = some pos) :
    ∀ j, start ≤ j → j < pos → ((rs__buf h s).drop j).take what.length ≠ what := by
  unfold rs_string_find at hf
  split at hf
  · split at hf
    · rw [Option.some.injEq] at hf
      subst hf
      intro j h1 h2
      omega
    · simp at hf
  · unfold rs__scan at hf
    exact rs__scan_from_min hf

theorem rs_string_replace_first_return (h : Heap) (s : rs_string) (fromv tov : List Byte)
    (a : Alloc) (hk : rs_okb h s = true) (ha : ∀ n, a n = true) :
    (rs_string_replace_first h s fromv tov a).1 = 0 := by
  unfold rs_string_replace_first
  cases hfind : rs_string_find h s fromv 0 with
  | none => rfl
  | some pos =>
    obtain ⟨-, hbound⟩ := rs_string_find_some hfind
    have hple : pos ≤ s.len := by omega
    dsimp only
    split
    · have h0e := rs_string_erase_total h s pos fromv.length a ha
      obtain ⟨_, hok⟩ := rs_string_erase_spec h s pos fromv.length a hk hple
      obtain ⟨okbE, _, _, _, _, _⟩ := hok h0e
      exact rs_string_insert_total _ _ pos tov a okbE ha
    · have hr0 := rs_string_reserve_ex_total h s (s.len + (tov.length - fromv.length)) a hk ha
      rw [if_neg (by simp [hr0])]
      obtain ⟨_, _, _, Rok⟩ :=
        rs_string_reserve_ex_spec h s (s.len + (tov.length - fromv.length)) a hk
      obtain ⟨okbR, _, lenR, _, _, _, _⟩ := Rok hr0
      have hpleR : pos ≤ (rs_string_reserve_ex h s (s.len + (tov.length - fromv.length)) a).2.2.len := by
        omega
      have h0e := rs_string_erase_total
        (rs_string_reserve_ex h s (s.len + (tov.length - fromv.length)) a).2.1
        (rs_string_reserve_ex h s (s.len + (tov.length - fromv.length)) a).2.2
        pos fromv.length a ha
      obtain ⟨_, hok⟩ := rs_string_erase_spec _ _ pos fromv.length a okbR hpleR
      obtain ⟨okbE, _, _, _, _, _⟩ := hok h0e
      exact rs_string_insert_total _ _ pos tov a okbE ha

/-! ### split lemmas -/

theorem rs_sv_split_loop_no_empty (s sep : List Byte) :
    ∀ fuel i, [] ∉ rs_sv_split_loop s sep false i fuel := by
  intro fuel
  induction fuel with
  | zero =>
    intro i
    rw [rs_sv_split_loop]
    exact List.not_mem_nil []
  | succ fuel ih =>
    intro i
    rw [rs_sv_split_loop]
    split
    · cases hscan : rs__scan s sep s.length i with
      | none =>
        dsimp only
        split
        · rename_i hcond
          rcases hcond with hlen | hcon
          · intro hmem
            rw [List.mem_singleton] at hmem
            rw [← hmem] at hlen
            simp at hlen
          · simp at hcon
        · exact List.not_mem_nil []
      | some pos =>
        dsimp only
        split
        · rename_i hcond
          simp at hcond
        · intro hmem
          rw [List.mem_append] at hmem
          rcases hmem with hm | hm
          · revert hm
            split
            · rename_i hcond
              rcases hcond with hlen | hcon
              · intro hm
                rw [List.mem_singleton] at hm
                rw [← hm] at hlen
                simp at hlen
              · simp at hcon
            · exact List.not_mem_nil []
          · exact ih _ hm
    · exact List.not_mem_nil []

theorem rs_sv_split_loop_ne_nil (s sep : List Byte) :
    ∀ fuel i, i ≤ s.length → 1 ≤ fuel → rs_sv_split_loop s sep true i fuel ≠ [] := by
  intro fuel i hi hf
  cases fuel with
  | zero => omega
  | succ fuel =>
    rw [rs_sv_split_loop, if_pos hi]
    cases hscan : rs__scan s sep s.length i with
    | none =>
      dsimp only
      rw [if_pos (Or.inr rfl)]
      simp
    | some pos =>
      dsimp only
      rw [if_pos (Or.inr rfl)]
      split
      · simp
      · simp

/-- With `keep_empty = true` and a non-empty separator, joining the visited
tokens with the separator reconstructs the unscanned suffix: the tokens are
exactly the non-overlapping separator-delimited pieces, left to right. -/
theorem rs_sv_split_loop_join (s sep : List Byte) (hsep : sep.length ≠ 0) :
    ∀ fuel i, i ≤ s.length → s.length + 1 - i ≤ fuel →
      rs__joinSep sep (rs_sv_split_loop s sep true i fuel) = s.drop i := by
  intro fuel
  induction fuel with
  | zero =>
    intro i hi hf
    omega
  | succ fuel ih =>
    intro i hi hf
    rw [rs_sv_split_loop, if_pos hi]
    cases hscan : rs__scan s sep s.length i with
    | none =>
      dsimp only
      rw [if_pos (Or.inr rfl)]
      rfl
    | some pos =>
      have hsc : rs__scan_from s sep s.length i (s.length + 1 - i) = some pos := by
        rw [← hscan]
        rfl
      obtain ⟨hip, hpb, hmatch⟩ := rs__scan_from_some hsc
      dsimp only
      rw [if_pos (Or.inr rfl)]
      have h1 : s.drop i = (s.drop i).take (pos - i) ++ (s.drop i).drop (pos - i) :=
        (List.take_append_drop _ _).symm
      have h2 : (s.drop i).drop (pos - i) = s.drop pos := by
        rw [List.drop_drop]
        have he : i + (pos - i) = pos := by omega
        rw [he]
      have h3 : s.drop pos = sep ++ s.drop (pos + sep.length) := by
        have h4 : s.drop pos
            = (s.drop pos).take sep.length ++ (s.drop pos).drop sep.length :=
          (List.take_append_drop _ _).symm
        rw [hmatch, List.drop_drop] at h4
        exact h4
      have hsplitdrop : s.drop i
          = (s.drop i).take (pos - i) ++ (sep ++ s.drop (pos + sep.length)) := by
        calc s.drop i
            = (s.drop i).take (pos - i) ++ (s.drop i).drop (pos - i) := h1
          _ = (s.drop i).take (pos - i) ++ s.drop pos := by rw [h2]
          _ = (s.drop i).take (pos - i) ++ (sep ++ s.drop (pos + sep.length)) := by
              rw [h3]
      by_cases hend : pos + sep.length = s.length
      · rw [if_pos ⟨hend, rfl⟩]
        show rs__joinSep sep ((s.drop i).take (pos - i) :: [[]]) = s.drop i
        rw [rs__joinSep, rs__joinSep, List.append_nil]
        conv_rhs => rw [hsplitdrop, hend, List.drop_length, List.append_nil]
      · rw [if_neg (by simp [hend])]
        have hi2le : pos + sep.length ≤ s.length := hpb
        have hfle : s.length + 1 - (pos + sep.length) ≤ fuel := by omega
        have hrest := ih (pos + sep.length) hi2le hfle
        have hne := rs_sv_split_loop_ne_nil s sep fuel (pos + sep.length) hi2le (by omega)
        cases hr : rs_sv_split_loop s sep true (pos + sep.length) fuel with
        | nil => exact absurd hr hne
        | cons t ts =>
          rw [hr] at hrest
          show rs__joinSep sep ((s.drop i).take (pos - i) :: t :: ts) = s.drop i
          rw [rs__joinSep, hrest]
          rw [List.append_assoc]
          exact hsplitdrop.symm

/-- Core of trim idempotence: if the reverse of `y` carries no leading run of
`p`-bytes, then right-trimming then left-trimming `y.dropWhile p` changes
nothing. -/
theorem rs__rtrim_ltrim_idem (p : Byte → Bool) (y : List Byte)
    (hy : y.reverse.dropWhile p = y.reverse) :
    (((y.dropWhile p).reverse.dropWhile p).reverse).dropWhile p = y.dropWhile p := by
  have hyr : y.reverse = (y.dropWhile p).reverse ++ (y.takeWhile p).reverse := by
    rw [← List.reverse_append, List.takeWhile_append_dropWhile]
  rw [hyr] at hy
  have hd := rs__dropWhile_self_of_front p ((y.dropWhile p).reverse)
    ((y.takeWhile p).reverse) hy
  rw [hd, List.reverse_reverse, rs__dropWhile_idem]

theorem rs_string_trim_spec (h : Heap) (s : rs_string) (a : Alloc)
    (hk : rs_okb h s = true) (ha : ∀ n, a n = true) :
    rs_okb (rs_string_trim h s a).2.1 (rs_string_trim h s a).2.2 = true ∧
    rs_string_content (rs_string_trim h s a).2.1 (rs_string_trim h s a).2.2
      = (((rs_string_content h s).reverse.dropWhile (fun b => b ≤ 0x20)).reverse).dropWhile
          (fun b => b ≤ 0x20) := by
  obtain ⟨_, okbR, contR, _, _⟩ := rs_string_trim_right_spec h s a hk ha
  obtain ⟨_, okbT, contT, _, _⟩ := rs_string_trim_left_spec
    (rs_string_trim_right h s a).2.1 (rs_string_trim_right h s a).2.2 a okbR ha
  have htrim : rs_string_trim h s a
      = rs_string_trim_left (rs_string_trim_right h s a).2.1
          (rs_string_trim_right h s a).2.2 a := rfl
  rw [htrim]
  exact ⟨okbT, by rw [contT, contR]⟩

/-! ### Claim theorems -/

/-- C1: code bug. `rs_string_share` retains the source's heap block twice — once
inside the heap branch and once more in the trailing
`if (rs_string_is_heap(dst)) rs__retain(dst);` — so sharing a block whose sole
owner had refcount 1 leaves the refcount at 3 for 2 live owners; after both
owners are freed the block survives with refcount 1 and is never released,
violating the claimed exact-live-owner-count invariant. -/
theorem C1_share_double_retain :
    rs_okb hC1 srcC1 = true ∧
    ((rs_string_share hC1 rs_string_init srcC1).1.lookup 0).map rs__hdr.rc = some 3 ∧
    ((rs_string_free
        (rs_string_free (rs_string_share hC1 rs_string_init srcC1).1
          (rs_string_share hC1 rs_string_init srcC1).2).1 srcC1).1.lookup 0).map rs__hdr.rc
      = some 1 := by
  decide

/-- C2 counterexample: on `"hi"`, replacing the present needle `"hi"` by `"yo"`
performs a replacement (content becomes `"yo"`) and returns 0, and replacing the
absent needle `"zz"` performs nothing and also returns 0 — the return value does
not distinguish the two cases. -/
theorem C2_counterexample :
    (rs_string_replace_first h0 sHi [104, 105] [121, 111] aT).1 = 0 ∧
    rs_string_content (rs_string_replace_first h0 sHi [104, 105] [121, 111] aT).2.1
      (rs_string_replace_first h0 sHi [104, 105] [121, 111] aT).2.2 = [121, 111] ∧
    rs_string_replace_first h0 sHi [122, 122] [121, 111] aT = (0, h0, sHi) := by
  decide

/-- C2 (amended): `rs_string_replace_first` reports no replacement information:
when `from` is absent it is a no-op returning 0, and under a successful allocator
it returns 0 as well when a replacement occurred — the return value only
distinguishes allocation failure (−1), never replaced from not-found. -/
theorem C2_replace_first_return_value (h : Heap) (s : rs_string)
    (fromv tov : List Byte) (a : Alloc)
    (hk : rs_okb h s = true) (ha : ∀ n, a n = true) :
    (rs_string_find h s fromv 0 = none →
      rs_string_replace_first h s fromv tov a = (0, h, s)) ∧
    (rs_string_replace_first h s fromv tov a).1 = 0 := by
  constructor
  · intro hn
    unfold rs_string_replace_first
    rw [hn]
  · exact rs_string_replace_first_return h s fromv tov a hk ha

theorem C2_replace_first_return_value_witness :
    rs_okb h0 sHi = true ∧
    ((rs_string_find h0 sHi [122, 122] 0 = none →
        rs_string_replace_first h0 sHi [122, 122] [121, 111] aT = (0, h0, sHi)) ∧
      (rs_string_replace_first h0 sHi [122, 122] [121, 111] aT).1 = 0) :=
  ⟨by decide,
   C2_replace_first_return_value h0 sHi [122, 122] [121, 111] aT (by decide)
     (fun _ => rfl)⟩

/-- C3: code bug. `rs_string_from_val` on a 23-byte value (one past the inline
capacity) calls `malloc` and immediately writes `h->cap` without checking the
result, so under allocation failure it dereferences a null pointer instead of
returning a distinguishable failure indicator with the value unchanged. -/
theorem C3_from_val_unchecked_malloc :
    rs_string_from_val h0 aF (some (List.replicate 23 97)) = rs_from_result.nullDeref := by
  decide

/-- C4: `rs_string_replace_all` with empty `from` is a no-op returning 0; each
loop iteration finds the leftmost occurrence at or after the cursor (no earlier
position matches) and resumes scanning immediately past the inserted text, so
replacement text is never re-matched within the same call; concretely, replacing
`"fish"` by `"cat"` in `"one fish two fish"` returns count 2 with content
`"one cat two cat"`, and replacing `"a"` by `"ab"` in `"aa"` (where `to`
contains `from`) returns count 2 with content `"abab"`. -/
theorem C4_replace_all_semantics (h : Heap) (s : rs_string) (fromv tov : List Byte)
    (a : Alloc) (fuel i : Nat) (nxt : Heap × rs_string × Nat)
    (hstep : rs__replace_all_step h s fromv tov a i = some nxt) :
    rs_string_replace_all h s [] tov a fuel = some (0, h, s) ∧
    (∃ pos, rs_string_find h s fromv i = some pos ∧ i ≤ pos ∧
      pos + fromv.length ≤ s.len ∧
      (∀ j, i ≤ j → j < pos → ((rs__buf h s).drop j).take fromv.length ≠ fromv) ∧
      nxt.2.2 = pos + tov.length) ∧
    (rs_string_replace_all h0 sFish [102, 105, 115, 104] [99, 97, 116] aT 20).map
        (fun r => (r.1, rs_string_content r.2.1 r.2.2))
      = some ((2 : Int),
          [111, 110, 101, 32, 99, 97, 116, 32, 116, 119, 111, 32, 99, 97, 116]) ∧
    (rs_string_replace_all h0 sAA [97] [97, 98] aT 20).map
        (fun r => (r.1, rs_string_content r.2.1 r.2.2))
      = some ((2 : Int), [97, 98, 97, 98]) := by
  refine ⟨by simp [rs_string_replace_all], ?_, by decide, by decide⟩
  unfold rs__replace_all_step at hstep
  cases hfind : rs_string_find h s fromv i with
  | none =>
    rw [hfind] at hstep
    exact absurd hstep (by simp)
  | some pos =>
    rw [hfind] at hstep
    rw [Option.some.injEq] at hstep
    obtain ⟨h1, h2⟩ := rs_string_find_some hfind
    refine ⟨pos, rfl, h1, h2, rs_string_find_min hfind, ?_⟩
    rw [← hstep]

theorem C4_replace_all_semantics_witness :
    rs__replace_all_step h0 sHi [104] [120] aT 0
      = some (h0, ({ len := 2, off := 0, p := none, cap := 22, sso := [120, 105, 0] } : rs_string), 1) ∧
    (rs_string_replace_all h0 sHi [] [120] aT 20 = some (0, h0, sHi) ∧
     (∃ pos, rs_string_find h0 sHi [104] 0 = some pos ∧ 0 ≤ pos ∧
       pos + [104].length ≤ sHi.len ∧
       (∀ j, 0 ≤ j → j < pos → ((rs__buf h0 sHi).drop j).take [104].length ≠ [104]) ∧
       (h0, ({ len := 2, off := 0, p := none, cap := 22, sso := [120, 105, 0] } : rs_string), 1).2.2
         = pos + [120].length) ∧
     (rs_string_replace_all h0 sFish [102, 105, 115, 104] [99, 97, 116] aT 20).map
         (fun r => (r.1, rs_string_content r.2.1 r.2.2))
       = some ((2 : Int),
           [111, 110, 101, 32, 99, 97, 116, 32, 116, 119, 111, 32, 99, 97, 116]) ∧
     (rs_string_replace_all h0 sAA [97] [97, 98] aT 20).map
         (fun r => (r.1, rs_string_content r.2.1 r.2.2))
       = some ((2 : Int), [97, 98, 97, 98])) :=
  ⟨by decide,
   C4_replace_all_semantics h0 sHi [104] [120] aT 20 0
     (h0, ({ len := 2, off := 0, p := none, cap := 22, sso := [120, 105, 0] } : rs_string), 1)
     (by decide)⟩

/-- C5: `rs_sv_split` never emits a zero-length token when `keep_empty` is
false (including a trailing one after a terminal separator); with an empty
separator it visits the whole input once exactly when the input is non-empty or
`keep_empty` is true; with `keep_empty` true and a non-empty separator, joining
the visited tokens with the separator reconstructs the input exactly, so the
tokens are the non-overlapping separator-delimited pieces left to right;
splitting `"a,,b,"` on `","` yields `["a", "", "b", ""]` with `keep_empty` true
and `["a", "b"]` with it false. -/
theorem C5_split_semantics (s sep : List Byte) (keep : Bool) :
    [] ∉ rs_sv_split s sep false ∧
    (sep.length = 0 →
      rs_sv_split s sep keep = if 0 < s.length ∨ keep = true then [s] else []) ∧
    (sep.length ≠ 0 → rs__joinSep sep (rs_sv_split s sep true) = s) ∧
    rs_sv_split [97, 44, 44, 98, 44] [44] true = [[97], [], [98], []] ∧
    rs_sv_split [97, 44, 44, 98, 44] [44] false = [[97], [98]] := by
  refine ⟨?_, ?_, ?_, by decide, by decide⟩
  · unfold rs_sv_split
    split
    · split
      · rename_i hcond
        rcases hcond with hlen | hcon
        · intro hm
          rw [List.mem_singleton] at hm
          rw [← hm] at hlen
          simp at hlen
        · simp at hcon
      · exact List.not_mem_nil []
    · exact rs_sv_split_loop_no_empty s sep (s.length + 1) 0
  · intro h0s
    unfold rs_sv_split
    rw [if_pos h0s]
  · intro hsep
    unfold rs_sv_split
    rw [if_neg hsep]
    have hj := rs_sv_split_loop_join s sep hsep (s.length + 1) 0 (Nat.zero_le _) (by omega)
    rw [List.drop_zero] at hj
    exact hj

/-- C6: when the geometric growth term does not overflow `size_t`, a reserve
that returns success leaves the length and content bytes unchanged, is a pure
no-op (state identical) when `need ≤ capacity`, and otherwise sets the new
capacity to `max(need, capacity + capacity/2 + 1)`; whether it succeeds or
fails, the resulting capacity is never below the current length. -/
theorem C6_reserve_spec (h : Heap) (s : rs_string) (need : Nat) (a : Alloc)
    (hk : rs_okb h s = true)
    (hnw : rs_string_cap s + rs_string_cap s / 2 + 1 < SIZE_BOUND) :
    (need ≤ rs_string_cap s → rs_string_reserve_ex h s need a = (0, h, s)) ∧
    ((rs_string_reserve_ex h s need a).1 = 0 →
      rs_string_content (rs_string_reserve_ex h s need a).2.1
          (rs_string_reserve_ex h s need a).2.2 = rs_string_content h s ∧
      (rs_string_reserve_ex h s need a).2.2.len = s.len ∧
      rs_string_cap (rs_string_reserve_ex h s need a).2.2
        = (if need ≤ rs_string_cap s then rs_string_cap s
           else max need (rs_string_cap s + rs_string_cap s / 2 + 1))) ∧
    s.len ≤ rs_string_cap (rs_string_reserve_ex h s need a).2.2 := by
  obtain ⟨Rno, Ror, Rfail, Rok⟩ := rs_string_reserve_ex_spec h s need a hk
  have hmod : (rs_string_cap s + rs_string_cap s / 2 + 1) % SIZE_BOUND
      = rs_string_cap s + rs_string_cap s / 2 + 1 := Nat.mod_eq_of_lt hnw
  refine ⟨Rno, ?_, ?_⟩
  · intro h0r
    obtain ⟨okbR, contR, lenR, _, _, capR, _⟩ := Rok h0r
    refine ⟨contR, lenR, ?_⟩
    rw [capR, hmod]
  · rcases Ror with h0r | hm1
    · obtain ⟨okbR, _, lenR, _, _, _, _⟩ := Rok h0r
      obtain ⟨_, hlenle, _, _, _, _⟩ := (rs_okb_iff _ _).mp okbR
      omega
    · obtain ⟨okbR, _, lenR, capR, _⟩ := Rfail hm1
      obtain ⟨_, hlenle, _, _, _, _⟩ := (rs_okb_iff _ _).mp okbR
      omega

theorem C6_reserve_spec_witness :
    rs_okb h0 sHi = true ∧
    rs_string_cap sHi + rs_string_cap sHi / 2 + 1 < SIZE_BOUND ∧
    ((100 ≤ rs_string_cap sHi → rs_string_reserve_ex h0 sHi 100 aT = (0, h0, sHi)) ∧
     ((rs_string_reserve_ex h0 sHi 100 aT).1 = 0 →
       rs_string_content (rs_string_reserve_ex h0 sHi 100 aT).2.1
           (rs_string_reserve_ex h0 sHi 100 aT).2.2 = rs_string_content h0 sHi ∧
       (rs_string_reserve_ex h0 sHi 100 aT).2.2.len = sHi.len ∧
       rs_string_cap (rs_string_reserve_ex h0 sHi 100 aT).2.2
         = (if 100 ≤ rs_string_cap sHi then rs_string_cap sHi
            else max 100 (rs_string_cap sHi + rs_string_cap sHi / 2 + 1))) ∧
     sHi.len ≤ rs_string_cap (rs_string_reserve_ex h0 sHi 100 aT).2.2) :=
  ⟨by decide, by decide, C6_reserve_spec h0 sHi 100 aT (by decide) (by decide)⟩

/-- C7: a StringValue in heap representation stays in heap representation across
every subsequent operation — reserve, ensure-unique, assign, append, insert,
erase, the trims, the replaces and formatted write — even when the content is
truncated to fit the inline capacity. -/
theorem C7_heap_never_reverts (h : Heap) (s : rs_string) (v fromv tov : List Byte)
    (need pos0 pos n0 fuel : Nat) (a : Alloc) (fmt_out : Option (List Byte))
    (hs : rs_string_is_heap s = true) :
    rs_string_is_heap (rs_string_reserve_ex h s need a).2.2 = true ∧
    rs_string_is_heap (rs__ensure_unique h s a).2.2 = true ∧
    rs_string_is_heap (rs_string_assign h s v a).2.2 = true ∧
    rs_string_is_heap (rs_string_append h s v a).2.2 = true ∧
    rs_string_is_heap (rs_string_insert h s pos0 v a).2.2 = true ∧
    rs_string_is_heap (rs_string_erase h s pos n0 a).2.2 = true ∧
    rs_string_is_heap (rs_string_trim_left h s a).2.2 = true ∧
    rs_string_is_heap (rs_string_trim_right h s a).2.2 = true ∧
    rs_string_is_heap (rs_string_trim h s a).2.2 = true ∧
    rs_string_is_heap (rs_string_replace_first h s fromv tov a).2.2 = true ∧
    (rs_string_replace_all h s fromv tov a fuel).all
      (fun r => rs_string_is_heap r.2.2) = true ∧
    rs_string_is_heap (rs_string_vprintf h s fmt_out a).2.2 = true := by
  have hps : s.p.isSome = true := hs
  refine ⟨rs_string_reserve_ex_isSome h s need a hps, ?_,
    rs_string_assign_isSome h s v a hps,
    rs_string_append_isSome h s v a hps,
    rs_string_insert_isSome h s pos0 v a hps,
    rs_string_erase_isSome h s pos n0 a hps,
    rs_string_trim_left_isSome h s a hps,
    rs_string_trim_right_isSome h s a hps,
    rs_string_trim_isSome h s a hps,
    rs_string_replace_first_isSome h s fromv tov a hps,
    rs_string_replace_all_isSome h s fromv tov a fuel hps,
    rs_string_vprintf_isSome h s fmt_out a hps⟩
  show (rs__ensure_unique h s a).2.2.p.isSome = true
  rw [rs__ensure_unique_isSome]
  exact hps

theorem C7_heap_never_reverts_witness :
    rs_string_is_heap sW7 = true ∧
    (rs_string_is_heap (rs_string_reserve_ex hW7 sW7 50 aT).2.2 = true ∧
     rs_string_is_heap (rs__ensure_unique hW7 sW7 aT).2.2 = true ∧
     rs_string_is_heap (rs_string_assign hW7 sW7 [120] aT).2.2 = true ∧
     rs_string_is_heap (rs_string_append hW7 sW7 [120] aT).2.2 = true ∧
     rs_string_is_heap (rs_string_insert hW7 sW7 0 [120] aT).2.2 = true ∧
     rs_string_is_heap (rs_string_erase hW7 sW7 0 2 aT).2.2 = true ∧
     rs_string_is_heap (rs_string_trim_left hW7 sW7 aT).2.2 = true ∧
     rs_string_is_heap (rs_string_trim_right hW7 sW7 aT).2.2 = true ∧
     rs_string_is_heap (rs_string_trim hW7 sW7 aT).2.2 = true ∧
     rs_string_is_heap (rs_string_replace_first hW7 sW7 [105] [111] aT).2.2 = true ∧
     (rs_string_replace_all hW7 sW7 [105] [111] aT 5).all
       (fun r => rs_string_is_heap r.2.2) = true ∧
     rs_string_is_heap (rs_string_vprintf hW7 sW7 (some [119]) aT).2.2 = true) :=
  ⟨by decide,
   C7_heap_never_reverts hW7 sW7 [120] [105] [111] 50 0 0 2 5 aT (some [119]) (by decide)⟩

/-- C8: under a successful allocator, on a well-formed string `trim_left`
removes exactly the leading run of bytes `≤ 0x20`, `trim_right` exactly the
trailing run, `trim` is literally `trim_right` followed by `trim_left`, and each
of the three is idempotent on the visible content. -/
theorem C8_trim_semantics (h : Heap) (s : rs_string) (a : Alloc)
    (hk : rs_okb h s = true) (ha : ∀ n, a n = true) :
    rs_string_content (rs_string_trim_left h s a).2.1 (rs_string_trim_left h s a).2.2
      = (rs_string_content h s).dropWhile (fun b => b ≤ 0x20) ∧
    rs_string_content (rs_string_trim_right h s a).2.1 (rs_string_trim_right h s a).2.2
      = ((rs_string_content h s).reverse.dropWhile (fun b => b ≤ 0x20)).reverse ∧
    rs_string_trim h s a
      = rs_string_trim_left (rs_string_trim_right h s a).2.1
          (rs_string_trim_right h s a).2.2 a ∧
    rs_string_content
        (rs_string_trim_left (rs_string_trim_left h s a).2.1
          (rs_string_trim_left h s a).2.2 a).2.1
        (rs_string_trim_left (rs_string_trim_left h s a).2.1
          (rs_string_trim_left h s a).2.2 a).2.2
      = rs_string_content (rs_string_trim_left h s a).2.1
          (rs_string_trim_left h s a).2.2 ∧
    rs_string_content
        (rs_string_trim_right (rs_string_trim_right h s a).2.1
          (rs_string_trim_right h s a).2.2 a).2.1
        (rs_string_trim_right (rs_string_trim_right h s a).2.1
          (rs_string_trim_right h s a).2.2 a).2.2
      = rs_string_content (rs_string_trim_right h s a).2.1
          (rs_string_trim_right h s a).2.2 ∧
    rs_string_content
        (rs_string_trim (rs_string_trim h s a).2.1 (rs_string_trim h s a).2.2 a).2.1
        (rs_string_trim (rs_string_trim h s a).2.1 (rs_string_trim h s a).2.2 a).2.2
      = rs_string_content (rs_string_trim h s a).2.1 (rs_string_trim h s a).2.2 := by
  obtain ⟨_, okbL, contL, _, _⟩ := rs_string_trim_left_spec h s a hk ha
  obtain ⟨_, okbR, contR, _, _⟩ := rs_string_trim_right_spec h s a hk ha
  obtain ⟨_, _, contLL, _, _⟩ := rs_string_trim_left_spec
    (rs_string_trim_left h s a).2.1 (rs_string_trim_left h s a).2.2 a okbL ha
  obtain ⟨_, _, contRR, _, _⟩ := rs_string_trim_right_spec
    (rs_string_trim_right h s a).2.1 (rs_string_trim_right h s a).2.2 a okbR ha
  obtain ⟨okbT, contT⟩ := rs_string_trim_spec h s a hk ha
  obtain ⟨_, contTT⟩ := rs_string_trim_spec
    (rs_string_trim h s a).2.1 (rs_string_trim h s a).2.2 a okbT ha
  refine ⟨contL, contR, rfl, ?_, ?_, ?_⟩
  · rw [contLL, contL, rs__dropWhile_idem]
  · rw [contRR, contR, List.reverse_reverse, rs__dropWhile_idem]
  · rw [contTT, contT]
    apply rs__rtrim_ltrim_idem
    rw [List.reverse_reverse]
    exact rs__dropWhile_idem _ _

theorem C8_trim_semantics_witness :
    rs_okb h0 sTr = true ∧
    (rs_string_content (rs_string_trim_left h0 sTr aT).2.1
        (rs_string_trim_left h0 sTr aT).2.2
      = (rs_string_content h0 sTr).dropWhile (fun b => b ≤ 0x20) ∧
    rs_string_content (rs_string_trim_right h0 sTr aT).2.1
        (rs_string_trim_right h0 sTr aT).2.2
      = ((rs_string_content h0 sTr).reverse.dropWhile (fun b => b ≤ 0x20)).reverse ∧
    rs_string_trim h0 sTr aT
      = rs_string_trim_left (rs_string_trim_right h0 sTr aT).2.1
          (rs_string_trim_right h0 sTr aT).2.2 aT ∧
    rs_string_content
        (rs_string_trim_left (rs_string_trim_left h0 sTr aT).2.1
          (rs_string_trim_left h0 sTr aT).2.2 aT).2.1
        (rs_string_trim_left (rs_string_trim_left h0 sTr aT).2.1
          (rs_string_trim_left h0 sTr aT).2.2 aT).2.2
      = rs_string_content (rs_string_trim_left h0 sTr aT).2.1
          (rs_string_trim_left h0 sTr aT).2.2 ∧
    rs_string_content
        (rs_string_trim_right (rs_string_trim_right h0 sTr aT).2.1
          (rs_string_trim_right h0 sTr aT).2.2 aT).2.1
        (rs_string_trim_right (rs_string_trim_right h0 sTr aT).2.1
          (rs_string_trim_right h0 sTr aT).2.2 aT).2.2
      = rs_string_content (rs_string_trim_right h0 sTr aT).2.1
          (rs_string_trim_right h0 sTr aT).2.2 ∧
    rs_string_content
        (rs_string_trim (rs_string_trim h0 sTr aT).2.1
          (rs_string_trim h0 sTr aT).2.2 aT).2.1
        (rs_string_trim (rs_string_trim h0 sTr aT).2.1
          (rs_string_trim h0 sTr aT).2.2 aT).2.2
      = rs_string_content (rs_string_trim h0 sTr aT).2.1
          (rs_string_trim h0 sTr aT).2.2) :=
  ⟨by decide, C8_trim_semantics h0 sTr aT (by decide) (fun _ => rfl)⟩

/-- C9 counterexample: with a shared heap block (refcount 2), a failing
allocator and empty `to`, one find/erase/insert iteration of
`rs_string_replace_all` returns the state and cursor unchanged (erase and
insert both fail in `rs__ensure_unique` and their returns are discarded), so
the C loop re-finds the same occurrence forever: the loop diverges at every
fuel bound. -/
theorem C9_counterexample :
    rs_okb hC9 sC9 = true ∧
    rs__replace_all_step hC9 sC9 [97] [] aF 0 = some (hC9, sC9, 0) ∧
    rs_string_replace_all hC9 sC9 [97] [] aF 30 = none := by
  decide

/-- C9 (amended): with a successful allocator, every `rs_string_replace_all`
iteration on a well-formed string with non-empty `from` decreases the unscanned
byte count `len − cursor` by at least `|from|` and preserves well-formedness, so
the loop terminates; the unconditional claim fails when allocation fails, `to`
is empty and the representation is shared (see the counterexample). -/
theorem C9_replace_all_progress (h : Heap) (s : rs_string) (fromv tov : List Byte)
    (a : Alloc) (i : Nat) (nxt : Heap × rs_string × Nat)
    (hk : rs_okb h s = true) (ha : ∀ n, a n = true) (hf : fromv ≠ [])
    (hstep : rs__replace_all_step h s fromv tov a i = some nxt) :
    nxt.2.1.len - nxt.2.2 + fromv.length ≤ s.len - i ∧
    rs_okb nxt.1 nxt.2.1 = true := by
  unfold rs__replace_all_step at hstep
  cases hfind : rs_string_find h s fromv i with
  | none =>
    rw [hfind] at hstep
    exact absurd hstep (by simp)
  | some pos =>
    rw [hfind] at hstep
    rw [Option.some.injEq] at hstep
    obtain ⟨hip, hpb⟩ := rs_string_find_some hfind
    have hple : pos ≤ s.len := by omega
    have h0e := rs_string_erase_total h s pos fromv.length a ha
    obtain ⟨_, hok⟩ := rs_string_erase_spec h s pos fromv.length a hk hple
    obtain ⟨okbE, _, lenE, _, _, _⟩ := hok h0e
    have h0i := rs_string_insert_total (rs_string_erase h s pos fromv.length a).2.1
      (rs_string_erase h s pos fromv.length a).2.2 pos tov a okbE ha
    obtain ⟨_, _, hoki⟩ := rs_string_insert_spec (rs_string_erase h s pos fromv.length a).2.1
      (rs_string_erase h s pos fromv.length a).2.2 pos tov a okbE
    obtain ⟨okbI, _, lenI, _, _⟩ := hoki h0i
    have hminE : min fromv.length (s.len - pos) = fromv.length := by omega
    rw [hminE] at lenE
    have hfl : 1 ≤ fromv.length := by
      cases hfv : fromv with
      | nil => exact absurd hfv hf
      | cons x xs => simp
    rw [← hstep]
    dsimp only
    refine ⟨?_, okbI⟩
    rw [lenI, lenE]
    omega

theorem C9_replace_all_progress_witness :
    rs_okb h0 sHi = true ∧ ([104] : List Byte) ≠ [] ∧
    rs__replace_all_step h0 sHi [104] [120] aT 0
      = some (h0, ({ len := 2, off := 0, p := none, cap := 22, sso := [120, 105, 0] } : rs_string), 1) ∧
    ((h0, ({ len := 2, off := 0, p := none, cap := 22, sso := [120, 105, 0] } : rs_string),
        1).2.1.len
        - (h0, ({ len := 2, off := 0, p := none, cap := 22, sso := [120, 105, 0] } : rs_string),
            1).2.2 + [104].length ≤ sHi.len - 0 ∧
      rs_okb (h0, ({ len := 2, off := 0, p := none, cap := 22, sso := [120, 105, 0] } : rs_string),
          1).1
        (h0, ({ len := 2, off := 0, p := none, cap := 22, sso := [120, 105, 0] } : rs_string),
          1).2.1 = true) :=
  ⟨by decide, by decide, by decide,
   C9_replace_all_progress h0 sHi [104] [120] aT 0
     (h0, ({ len := 2, off := 0, p := none, cap := 22, sso := [120, 105, 0] } : rs_string), 1)
     (by decide) (fun _ => rfl) (by decide) (by decide)⟩

/-- C10: construction from a null pointer or from an empty byte sequence yields
the empty inline string — length 0, inline representation, inline capacity
`RS_SSO_CAP`, terminator byte at index 0 — and performs no heap allocation (the
heap is returned untouched). -/
theorem C10_from_val_empty (h : Heap) (a : Alloc) :
    rs_string_from_val h a none = rs_from_result.ok h rs_string_init ∧
    rs_string_from_val h a (some []) = rs_from_result.ok h rs_string_init ∧
    rs_string_init.len = 0 ∧
    rs_string_is_heap rs_string_init = false ∧
    rs_string_cap rs_string_init = RS_SSO_CAP ∧
    rs_string_init.sso.getD 0 1 = 0 := by
  refine ⟨rfl, ?_, rfl, rfl, rfl, rfl⟩
  simp [rs_string_from_val]
